import Mathlib

/-!
Verification of the Delta Bundler dependency traversal
(`packages/metro/src/DeltaBundler/traverseDependencies.js`).

The JavaScript source is shallowly embedded as pure Lean functions:

* JS `Map` becomes an insertion-ordered association list (`mapGet`, `mapSet`,
  `mapDeleteB` mirror `Map.prototype.get/set/delete`; `set` keeps the original
  position of an existing key, as JS maps do).
* JS `Set` becomes an insertion-ordered duplicate-free list (`setAdd`,
  `listRemove`).
* The mutable `Graph`/`Delta` pair and the progress counters of
  `traverseDependenciesForSingleFile` become an explicit state record `St`
  threaded through every function.
* `async`/`await` is sequentialized: `Promise.all` fan-out over a module's
  newly discovered children is modelled by processing the children one after
  the other; the field `Options.reverseOrder` selects between program order
  and reversed order, modelling the nondeterministic completion order of the
  in-flight child transforms.  All root lookups and `delta.modified`
  insertions of `traverseDependencies` happen synchronously before the first
  transform completes in JS, so they are modelled as a separate first phase
  (`collectRoots`).
* A failing `transform` rejects the whole pass; this and exhaustion of the
  recursion fuel are modelled by `Option` (`none` = the pass does not
  complete normally).  The recursion of `removeDependency` and
  `processModule`/`addDependency` is genuinely unbounded in JS, hence fuel.
* Invocations observable by collaborators are recorded in an event log:
  every `onProgress` callback, every completed `transform` call, and every
  entry into `removeDependency` / `addDependency`.
-/

namespace Metro

abbrev Path := String

/-- JS `Map.prototype.get`: first (unique) binding of the key. -/
def mapGet : List (Path × α) → Path → Option α
  | [], _ => none
  | e :: rest, k => if e.1 = k then some e.2 else mapGet rest k

/-- JS `Map.prototype.set`: overwrite in place (keeping the position of an
existing key) or append a fresh binding. -/
def mapSet : List (Path × α) → Path → α → List (Path × α)
  | [], k, v => [(k, v)]
  | e :: rest, k, v => if e.1 = k then (k, v) :: rest else e :: mapSet rest k v

/-- JS `Map.prototype.delete`: remove the binding and report whether the key
was present. -/
def mapDeleteB : List (Path × α) → Path → List (Path × α) × Bool
  | [], _ => ([], false)
  | e :: rest, k =>
    if e.1 = k then (rest, true)
    else
      let r := mapDeleteB rest k
      (e :: r.1, r.2)

/-- JS `Map.prototype.has`. -/
def mapHas (m : List (Path × α)) (k : Path) : Bool :=
  (mapGet m k).isSome

/-- JS `Set.prototype.add`: append if not already present. -/
def setAdd (s : List Path) (x : Path) : List Path :=
  if x ∈ s then s else s ++ [x]

/-- JS `Set.prototype.delete`. -/
def listRemove (s : List Path) (x : Path) : List Path :=
  s.filter (fun y => y ≠ x)

/-- `DependencyType = 'module' | 'script' | 'asset'`. -/
inductive DependencyType
  | module
  | script
  | asset
deriving DecidableEq, Repr

/-- The `output` field of a `Module` (code, source-map segments, source text,
variant tag).  Source-map segment tuples are opaque to this file and modelled
as integer lists. -/
structure Output where
  code : String
  map : List (List Int)
  source : String
  type : DependencyType
deriving DecidableEq, Repr

/-- `Module`: forward edges (specifier → absolute path, insertion-ordered),
back-references, identity path and transform output. -/
structure Module where
  dependencies : List (Path × Path)
  inverseDependencies : List Path
  path : Path
  output : Output
deriving DecidableEq, Repr

/-- `Graph`: all module records keyed by path plus the fixed entry points. -/
structure Graph where
  dependencies : List (Path × Module)
  entryPoints : List Path
deriving DecidableEq, Repr

/-- Caller-facing `Result`. -/
structure Result where
  added : List (Path × Module)
  deleted : List Path
deriving DecidableEq, Repr

/-- Per-pass `Delta` accumulator. -/
structure Delta where
  added : List (Path × Module)
  modified : List (Path × Module)
  deleted : List Path
deriving DecidableEq, Repr

/-- What a successful `transform` collaborator call returns. -/
structure TransformResult where
  dependencies : List Path
  output : Output
deriving DecidableEq, Repr

/-- The collaborators.  `onProgress` records whether the optional callback is
present; `reverseOrder` selects the modelled completion order of concurrent
child transforms (see the file comment). -/
structure Options where
  resolve : Path → Path → Path
  transform : Path → Option TransformResult
  onProgress : Bool
  reverseOrder : Bool

/-- Observable collaborator invocations, in order. -/
inductive Event
  | progress (numProcessed total : Nat)
  | transformCall (path : Path)
  | removeCall (parentPath path : Path)
  | addCall (parentPath path : Path)
deriving DecidableEq, Repr

/-- The threaded mutable state: the graph's module table, the pass delta, the
event log, and the per-file progress counters. -/
structure St where
  graph : List (Path × Module)
  delta : Delta
  events : List Event
  numProcessed : Nat
  total : Nat
deriving DecidableEq, Repr

/-- Fire the optional `onProgress` callback with the current counters. -/
def emitProgress (st : St) (options : Options) : St :=
  if options.onProgress then
    { st with events := st.events ++ [Event.progress st.numProcessed st.total] }
  else st

/-- `createModule`: fresh record with empty edges and empty output, inserted
into the graph. -/
def createModule (filePath : Path) (graph : List (Path × Module)) :
    Module × List (Path × Module) :=
  let module : Module :=
    { dependencies := []
      inverseDependencies := []
      path := filePath
      output := { code := "", map := [], source := "", type := DependencyType.module } }
  (module, mapSet graph filePath module)

/-- `resolveDependencies`: resolve every specifier, building the
specifier → absolute-path map (`new Map(dependencies.map(...))`). -/
def resolveDependencies (parentPath : Path) (dependencies : List Path)
    (options : Options) : List (Path × Path) :=
  dependencies.foldl
    (fun m relativePath => mapSet m relativePath (options.resolve parentPath relativePath))
    []

/-- The pending removal work: one `removeDependency(parent, target)` call, the
cascade loop over a deleted module's dependency values, or the stale-specifier
removal loop of `processModule`. -/
inductive RemCall
  | one (parentPath absolutePath : Path)
  | all (parentPath : Path) (targets : List Path)
  | old (modulePath : Path) (previous current : List (Path × Path))

/-- The removal engine, structurally recursive on fuel (`none` models the
unbounded JS recursion failing to complete).

* `RemCall.one` is `removeDependency(parentModule, absolutePath, graph,
  delta)`: drop the parent from the child's back-references; if none remain,
  mark the child deleted, cascade through its dependency values and delete
  its record.
* `RemCall.all` is `for (const depAbsolutePath of module.dependencies.values())`.
* `RemCall.old` is the loop of `processModule` removing every previous
  specifier absent from the current specifier set. -/
def remStep : Nat → RemCall → St → Option St
  | 0, _, _ => none
  | fuel + 1, RemCall.one parentPath absolutePath, st =>
    let st := { st with events := st.events ++ [Event.removeCall parentPath absolutePath] }
    match mapGet st.graph absolutePath with
    | none => some st
    | some module =>
      let inv := listRemove module.inverseDependencies parentPath
      let st := { st with
        graph := mapSet st.graph absolutePath { module with inverseDependencies := inv } }
      if inv.isEmpty then
        let st := { st with
          delta := { st.delta with deleted := setAdd st.delta.deleted module.path } }
        match remStep fuel (RemCall.all module.path (module.dependencies.map Prod.snd)) st with
        | none => none
        | some st => some { st with graph := (mapDeleteB st.graph module.path).1 }
      else
        some st
  | _ + 1, RemCall.all _ [], st => some st
  | fuel + 1, RemCall.all parentPath (p :: ps), st =>
    match remStep fuel (RemCall.one parentPath p) st with
    | none => none
    | some st => remStep fuel (RemCall.all parentPath ps) st
  | _ + 1, RemCall.old _ [] _, st => some st
  | fuel + 1, RemCall.old modulePath (e :: rest) current, st =>
    if mapHas current e.1 then remStep fuel (RemCall.old modulePath rest current) st
    else
      match remStep fuel (RemCall.one modulePath e.2) st with
      | none => none
      | some st => remStep fuel (RemCall.old modulePath rest current) st

/-- `removeDependency(parentModule, absolutePath, graph, delta)` (see
`remStep`). -/
def removeDependency (fuel : Nat) (parentPath absolutePath : Path) (st : St) :
    Option St :=
  remStep fuel (RemCall.one parentPath absolutePath) st

/-- The cascade loop over a deleted module's dependency values (see `remStep`). -/
def removeAll (fuel : Nat) (parentPath : Path) (targets : List Path) (st : St) :
    Option St :=
  remStep fuel (RemCall.all parentPath targets) st

/-- The stale-specifier removal loop of `processModule` (see `remStep`). -/
def removeOld (fuel : Nat) (modulePath : Path) (previous current : List (Path × Path))
    (st : St) : Option St :=
  remStep fuel (RemCall.old modulePath previous current) st

/-- The current-dependency entries whose specifier is new (the addition fan-out
of `processModule`). -/
def newEntries (previous current : List (Path × Path)) : List (Path × Path) :=
  current.filter (fun e => ¬ mapHas previous e.1)

/-- The pending traversal work: a `processModule` call, an `addDependency`
call, or the fan-out over a module's new children. -/
inductive TravCall
  | processModule (modulePath : Path)
  | addDependency (parentPath path : Path)
  | addAll (parentPath : Path) (entries : List (Path × Path))

/-- The traversal engine, structurally recursive on fuel.

* `TravCall.processModule` is `processModule`: transform, resolve, replace
  the module's output and dependency map, then diff the previous/current
  specifier sets, removing stale edges and adding new ones.
* `TravCall.addDependency` is `addDependency(parentModule, path, ...)`: link
  an existing child, or create, link, record in `delta.added` and recursively
  process a new child, signalling discovery and completion to the progress
  counters.
* `TravCall.addAll` is the `Promise.all` fan-out over a module's new
  children, sequentialized in the order chosen by `Options.reverseOrder`. -/
def travStep : Nat → TravCall → St → Options → Option St
  | 0, _, _, _ => none
  | fuel + 1, TravCall.processModule modulePath, st, options =>
    match mapGet st.graph modulePath with
    | none => some st
    | some module =>
      let previousDependencies := module.dependencies
      match options.transform modulePath with
      | none => none
      | some result =>
        let st := { st with events := st.events ++ [Event.transformCall modulePath] }
        let currentDependencies :=
          resolveDependencies modulePath result.dependencies options
        let st := { st with
          graph := mapSet st.graph modulePath
            { module with output := result.output, dependencies := currentDependencies } }
        match removeOld fuel modulePath previousDependencies currentDependencies st with
        | none => none
        | some st =>
          let entries := newEntries previousDependencies currentDependencies
          let entries := if options.reverseOrder then entries.reverse else entries
          travStep fuel (TravCall.addAll modulePath entries) st options
  | fuel + 1, TravCall.addDependency parentModulePath path, st, options =>
    let st := { st with events := st.events ++ [Event.addCall parentModulePath path] }
    match mapGet st.graph path with
    | some existingModule =>
      some { st with
        graph := mapSet st.graph path
          { existingModule with
            inverseDependencies := setAdd existingModule.inverseDependencies parentModulePath } }
    | none =>
      let c := createModule path st.graph
      let module := { c.1 with inverseDependencies := setAdd c.1.inverseDependencies parentModulePath }
      let st := { st with
        graph := mapSet c.2 path module
        delta := { st.delta with added := mapSet st.delta.added module.path module } }
      let st := emitProgress { st with total := st.total + 1 } options
      match travStep fuel (TravCall.processModule path) st options with
      | none => none
      | some st =>
        some (emitProgress { st with numProcessed := st.numProcessed + 1 } options)
  | _ + 1, TravCall.addAll _ [], st, _ => some st
  | fuel + 1, TravCall.addAll parentModulePath (e :: rest), st, options =>
    match travStep fuel (TravCall.addDependency parentModulePath e.2) st options with
    | none => none
    | some st => travStep fuel (TravCall.addAll parentModulePath rest) st options

/-- `processModule` (see `travStep`). -/
def processModule (fuel : Nat) (modulePath : Path) (st : St) (options : Options) :
    Option St :=
  travStep fuel (TravCall.processModule modulePath) st options

/-- `addDependency(parentModule, path, ...)` (see `travStep`). -/
def addDependency (fuel : Nat) (parentModulePath path : Path) (st : St)
    (options : Options) : Option St :=
  travStep fuel (TravCall.addDependency parentModulePath path) st options

/-- The fan-out over a module's new children (see `travStep`). -/
def addAll (fuel : Nat) (parentModulePath : Path) (entries : List (Path × Path))
    (st : St) (options : Options) : Option St :=
  travStep fuel (TravCall.addAll parentModulePath entries) st options

/-- `traverseDependenciesForSingleFile`: reset the per-file progress counters
and process one changed module, reporting the final completion. -/
def traverseDependenciesForSingleFile (fuel : Nat) (modulePath : Path) (st : St)
    (options : Options) : Option St :=
  let st := emitProgress { st with numProcessed := 0, total := 1 } options
  match processModule fuel modulePath st options with
  | none => none
  | some st => some (emitProgress { st with numProcessed := st.numProcessed + 1 } options)

/-- The synchronous prefix of the per-path callbacks of
`traverseDependencies`: look every changed path up in the (still unmodified)
graph, silently skipping the absent ones, and mark the found modules
modified. -/
def collectRoots (graph : List (Path × Module)) (paths : List Path) (delta : Delta) :
    List Path × Delta :=
  paths.foldl
    (fun acc path =>
      match mapGet graph path with
      | none => acc
      | some module =>
        (acc.1 ++ [module.path], { acc.2 with modified := mapSet acc.2.modified module.path module }))
    ([], delta)

/-- One step of the `delta.deleted` reconciliation loop: cancel the deletion
against `added` unless the path was also modified. -/
def reconStep (modified : List (Path × Module))
    (acc : List (Path × Module) × List Path) (path : Path) :
    List (Path × Module) × List Path :=
  let d := mapDeleteB acc.1 path
  if ¬ d.2 ∨ mapHas modified path then (d.1, setAdd acc.2 path) else (d.1, acc.2)

/-- The reconciliation of `traverseDependencies` (its final `added` / `deleted`
construction from the pass delta). -/
def reconcile (delta : Delta) : Result :=
  let added := delta.added.foldl (fun m e => mapSet m e.1 e.2) []
  let added := delta.modified.foldl (fun m e => mapSet m e.1 e.2) added
  let modified := delta.modified.foldl (fun m e => mapSet m e.1 e.2) []
  let r := delta.deleted.foldl (reconStep modified) (added, [])
  { added := r.1, deleted := r.2 }

/-- Run the single-file traversals for the collected roots in sequence. -/
def traverseRoots (fuel : Nat) (roots : List Path) (st : St) (options : Options) :
    Option St :=
  match roots with
  | [] => some st
  | p :: ps =>
    match traverseDependenciesForSingleFile fuel p st options with
    | none => none
    | some st => traverseRoots fuel ps st options

/-- `traverseDependencies(paths, graph, options)`: warm traversal of the
changed paths, returning the reconciled result, the mutated graph and the
event log of the pass. -/
def traverseDependencies (fuel : Nat) (paths : List Path) (graph : Graph)
    (options : Options) : Option (Result × Graph × List Event) :=
  let c := collectRoots graph.dependencies paths { added := [], modified := [], deleted := [] }
  let st : St :=
    { graph := graph.dependencies, delta := c.2, events := [], numProcessed := 0, total := 0 }
  match traverseRoots fuel c.1 st options with
  | none => none
  | some st =>
    some (reconcile st.delta, { graph with dependencies := st.graph }, st.events)

/-- The node argument of `reorderDependencies`: either the synthetic root
(whose `dependencies` map sends each entry point to itself) or a real module. -/
inductive ReorderNode
  | root (dependencies : List (Path × Path))
  | mod (module : Module)

/-- The pending linearization work: visit a node, or walk a node's forward
edges in declaration order. -/
inductive ReorderCall
  | node (node : ReorderNode)
  | children (deps : List (Path × Path))

/-- The linearization engine (`reorderDependencies`), structurally recursive
on fuel: depth-first placement of every reachable module, skipping modules
that already have a position; `ReorderCall.children` is
`module.dependencies.forEach(path => ...)`, visiting each dependency value
that resolves to a module of the table. -/
def reorderStep : Nat → ReorderCall → List (Path × Module) →
    List (Path × Module) → List (Path × Module)
  | 0, _, _, ordered => ordered
  | fuel + 1, ReorderCall.node (ReorderNode.root rootDeps), dependencies, ordered =>
    reorderStep fuel (ReorderCall.children rootDeps) dependencies ordered
  | fuel + 1, ReorderCall.node (ReorderNode.mod module), dependencies, ordered =>
    if mapHas ordered module.path then ordered
    else
      reorderStep fuel (ReorderCall.children module.dependencies) dependencies
        (mapSet ordered module.path module)
  | _ + 1, ReorderCall.children [], _, ordered => ordered
  | fuel + 1, ReorderCall.children (e :: rest), dependencies, ordered =>
    let ordered :=
      match mapGet dependencies e.2 with
      | none => ordered
      | some dep => reorderStep fuel (ReorderCall.node (ReorderNode.mod dep)) dependencies ordered
    reorderStep fuel (ReorderCall.children rest) dependencies ordered

/-- `reorderDependencies(module, dependencies, orderedDependencies)` (see
`reorderStep`). -/
def reorderDependencies (fuel : Nat) (node : ReorderNode)
    (dependencies ordered : List (Path × Module)) : List (Path × Module) :=
  reorderStep fuel (ReorderCall.node node) dependencies ordered

/-- A fuel amount ample for the bounded depth of the linearization recursion
(one level per placed module plus one per walked edge). -/
def reorderFuel (graph : Graph) : Nat :=
  graph.dependencies.length +
    (graph.dependencies.map (fun e => e.2.dependencies.length)).sum +
    graph.entryPoints.length + 2

/-- `reorderGraph`: rebuild the graph's module table in deterministic
depth-first order from a synthetic root over the entry points. -/
def reorderGraph (graph : Graph) : Graph :=
  let parentDeps := graph.entryPoints.foldl (fun m e => mapSet m e e) []
  let dependencies :=
    reorderDependencies (reorderFuel graph) (ReorderNode.root parentDeps)
      graph.dependencies []
  { graph with dependencies := dependencies }

/-- `initialTraverseDependencies`: create a record per entry point, run the
warm traversal over all entry points, re-linearize, and report the whole
graph as added. -/
def initialTraverseDependencies (fuel : Nat) (graph : Graph) (options : Options) :
    Option (Result × Graph × List Event) :=
  match traverseDependencies fuel graph.entryPoints
      { graph with
        dependencies :=
          graph.entryPoints.foldl (fun g e => (createModule e g).2) graph.dependencies }
      options with
  | none => none
  | some r =>
    some ({ added := (reorderGraph r.2.1).dependencies, deleted := [] },
      reorderGraph r.2.1, r.2.2)

/-! ### Derived definitions used by the statements -/

/-- Keys of an association list. -/
def mapKeys (m : List (Path × α)) : List Path :=
  m.map Prod.fst

/-- The subsequence of `onProgress` callback arguments in an event log. -/
def progressPairs (l : List Event) : List (Nat × Nat) :=
  l.filterMap fun e =>
    match e with
    | Event.progress numProcessed total => some (numProcessed, total)
    | _ => none

/-- Componentwise order on progress pairs (`numProcessed`, `total`). -/
def pairLe (a b : Nat × Nat) : Prop :=
  a.1 ≤ b.1 ∧ a.2 ≤ b.2

instance (a b : Nat × Nat) : Decidable (pairLe a b) :=
  inferInstanceAs (Decidable (a.1 ≤ b.1 ∧ a.2 ≤ b.2))

/-- Wellformedness of the graph's module table: keys are unique and each
record's `path` field is its key. -/
def WFg (g : List (Path × Module)) : Prop :=
  (mapKeys g).Nodup ∧ ∀ e ∈ g, e.2.path = e.1

instance (g : List (Path × Module)) : Decidable (WFg g) :=
  inferInstanceAs (Decidable ((mapKeys g).Nodup ∧ ∀ e ∈ g, e.2.path = e.1))

/-- All absolute paths recorded as a dependency value of some module of the
table. -/
def depTargets (g : List (Path × Module)) : List Path :=
  (g.map (fun e => e.2.dependencies.map Prod.snd)).flatten

/-- The parent path of a pending removal call. -/
def remParent : RemCall → Path
  | RemCall.one parentPath _ => parentPath
  | RemCall.all parentPath _ => parentPath
  | RemCall.old modulePath _ _ => modulePath

/-- The module paths a pending removal call directly targets. -/
def remTargets : RemCall → List Path
  | RemCall.one _ absolutePath => [absolutePath]
  | RemCall.all _ targets => targets
  | RemCall.old _ previous current =>
    (previous.filter (fun e => ¬ mapHas current e.1)).map Prod.snd

/-- What any removal run (with parent `P` and direct targets `ts`) does to the
state: it never touches `delta.added`/`delta.modified`, only grows
`delta.deleted`, leaves the progress counters alone, only appends
non-progress events, and — over a wellformed table — preserves
wellformedness, only shrinks records (same path, dependencies and output,
back-references a subset), keeps every back-reference whose owner is neither
`P` nor deleted in this run (so such a module is never removed), and leaves
the record of any path that is neither a direct target nor a recorded
dependency value entirely alone. -/
def remRel (P : Path) (ts : List Path) (st st' : St) : Prop :=
  st'.delta.added = st.delta.added ∧
  st'.delta.modified = st.delta.modified ∧
  (∀ x ∈ st.delta.deleted, x ∈ st'.delta.deleted) ∧
  st'.numProcessed = st.numProcessed ∧
  st'.total = st.total ∧
  (∃ l, st'.events = st.events ++ l ∧ progressPairs l = []) ∧
  (WFg st.graph →
    WFg st'.graph ∧
    (∀ q m', mapGet st'.graph q = some m' →
      ∃ m, mapGet st.graph q = some m ∧ m'.path = m.path ∧
        m'.dependencies = m.dependencies ∧ m'.output = m.output ∧
        ∀ r ∈ m'.inverseDependencies, r ∈ m.inverseDependencies) ∧
    (∀ q m, mapGet st.graph q = some m → ∀ r ∈ m.inverseDependencies,
      r ≠ P → r ∉ st'.delta.deleted →
      ∃ m', mapGet st'.graph q = some m' ∧ r ∈ m'.inverseDependencies) ∧
    (∀ q, q ∉ ts → q ∉ depTargets st.graph →
      mapGet st'.graph q = mapGet st.graph q))

/-- What any traversal-engine run does to the progress counters and the event
log: `numProcessed` and `total` never decrease, their difference is exactly
preserved (every discovery increment is matched by a completion increment by
the time the run returns), the event log only grows, and — whenever the run
starts with `numProcessed < total` — the progress callbacks it emits form a
componentwise nondecreasing chain starting no lower than the initial
counters, bounded by the final counters, with `numProcessed ≤ total` at every
callback. -/
def travRel (st st' : St) : Prop :=
  st.numProcessed ≤ st'.numProcessed ∧
  st.total ≤ st'.total ∧
  st'.total + st.numProcessed = st.total + st'.numProcessed ∧
  ∃ l, st'.events = st.events ++ l ∧
    (st.numProcessed < st.total →
      List.Chain pairLe (st.numProcessed, st.total) (progressPairs l) ∧
      ∀ x ∈ progressPairs l,
        pairLe x (st'.numProcessed, st'.total) ∧ x.1 ≤ x.2)

/-! ### Concrete scenario data -/

/-- An empty transform output. -/
def outEmpty : Output :=
  { code := "", map := [], source := "", type := DependencyType.module }

/-- A fresh module record at a path (what `createModule` builds). -/
def sampleModule (p : Path) : Module :=
  { dependencies := [], inverseDependencies := [], path := p, output := outEmpty }

/-- Options whose transform yields no dependencies at all. -/
def optsLeaf : Options :=
  { resolve := fun _ s => s
    transform := fun _ => some { dependencies := [], output := outEmpty }
    onProgress := true
    reverseOrder := false }

/-- An empty graph with single entry point `A`. -/
def gEntryA : Graph := { dependencies := [], entryPoints := ["A"] }

/-- A graph already containing a record for `A`. -/
def gModA : Graph :=
  { dependencies := [("A", sampleModule "A")], entryPoints := ["A"] }

/-- A pass delta in which `p` is added, modified and deleted. -/
def deltaPAM : Delta :=
  { added := [("p", sampleModule "p")]
    modified := [("p", sampleModule "p")]
    deleted := ["p"] }

/-- A pass delta in which `p` is added and deleted but not modified. -/
def deltaPA : Delta :=
  { added := [("p", sampleModule "p")]
    modified := []
    deleted := ["p"] }

/-- The result triple of the concrete cold start used as the C7 witness. -/
def coldTriple : Result × Graph × List Event :=
  (initialTraverseDependencies 10 gEntryA optsLeaf).getD
    ({ added := [], deleted := [] }, { dependencies := [], entryPoints := [] }, [])

/-- Two root modules with no dependencies, plus transform options under which
`r1` discovers one new dependency `n` while `r2` has none: the multi-root
progress counterexample. -/
def progGraph : Graph :=
  { dependencies := [("r1", sampleModule "r1"), ("r2", sampleModule "r2")]
    entryPoints := [] }

/-- Transform options for `progGraph` (see `progGraph`). -/
def progOptions : Options :=
  { resolve := fun _ s => s
    transform := fun p =>
      if p = "r1" then some { dependencies := ["n"], output := outEmpty }
      else some { dependencies := [], output := outEmpty }
    onProgress := true
    reverseOrder := false }

/-- The linearization scenario: entry `A`, `A → [B, C]`, `B → [D]`,
`C → [D]`; `reverse` selects which of `B`/`C` finishes its transform first. -/
def scenarioOptions (reverse : Bool) : Options :=
  { resolve := fun _ s => s
    transform := fun p =>
      if p = "A" then some { dependencies := ["B", "C"], output := outEmpty }
      else if p = "B" then some { dependencies := ["D"], output := outEmpty }
      else if p = "C" then some { dependencies := ["D"], output := outEmpty }
      else some { dependencies := [], output := outEmpty }
    onProgress := false
    reverseOrder := reverse }

/-- The cold start of the linearization scenario. -/
def scenarioRun (reverse : Bool) : Option (Result × Graph × List Event) :=
  initialTraverseDependencies 30 gEntryA (scenarioOptions reverse)

/-- The graph produced by the linearization scenario's cold start. -/
def scenarioGraphOf (reverse : Bool) : Graph :=
  ((scenarioRun reverse).getD
    ({ added := [], deleted := [] }, { dependencies := [], entryPoints := [] }, [])).2.1

/-- `D`'s back-references after the linearization scenario's cold start. -/
def scenarioDInv (reverse : Bool) : List Path :=
  ((mapGet (scenarioGraphOf reverse).dependencies "D").getD (sampleModule "D")).inverseDependencies

/-- The two-root pass over `progGraph`. -/
def progRun : Option (Result × Graph × List Event) :=
  traverseDependencies 12 ["r1", "r2"] progGraph progOptions

/-- The whole-pass progress callback sequence of `progRun`. -/
def progPairs : List (Nat × Nat) :=
  (progRun.map (fun r => progressPairs r.2.2)).getD []

/-- A bare traversal state over the `gModA` table. -/
def stModA : St :=
  { graph := gModA.dependencies
    delta := { added := [], modified := [], deleted := [] }
    events := []
    numProcessed := 0
    total := 0 }

/-- An empty pass delta. -/
def emptyDelta : Delta := { added := [], modified := [], deleted := [] }

/-- A single-file traversal of `A` over `stModA`. -/
def singleRun : Option St := traverseDependenciesForSingleFile 10 "A" stModA optsLeaf

/-- The state after `singleRun`. -/
def singleEnd : St := singleRun.getD stModA

/-- Cascade scenario: `X` (referred to only by the parent `P`) depends on `Y`
and on `Z`; `Y` is only referred to by `X`, while `Z` is also referred to by
the surviving module `W`. -/
def modX : Module :=
  { dependencies := [("y", "Y"), ("z", "Z")], inverseDependencies := ["P"],
    path := "X", output := outEmpty }

/-- See `modX`. -/
def modY : Module :=
  { dependencies := [], inverseDependencies := ["X"], path := "Y", output := outEmpty }

/-- See `modX`. -/
def modZ : Module :=
  { dependencies := [], inverseDependencies := ["X", "W"], path := "Z", output := outEmpty }

/-- See `modX`. -/
def modW : Module :=
  { dependencies := [("z", "Z")], inverseDependencies := [], path := "W", output := outEmpty }

/-- The state of the cascade scenario. -/
def cascadeSt : St :=
  { graph := [("X", modX), ("Y", modY), ("Z", modZ), ("W", modW)]
    delta := emptyDelta, events := [], numProcessed := 0, total := 0 }

/-- Removing the edge `P → X` in the cascade scenario. -/
def cascadeRun : Option St := removeDependency 10 "P" "X" cascadeSt

/-- The state after `cascadeRun`. -/
def cascadeEnd : St := cascadeRun.getD cascadeSt

/-- Shared-dependency scenario: `D` is referred to by `B` and `C`. -/
def modDsh : Module :=
  { dependencies := [], inverseDependencies := ["B", "C"], path := "D", output := outEmpty }

/-- The state of the shared-dependency scenario. -/
def sharedSt : St :=
  { graph := [("D", modDsh)], delta := emptyDelta, events := [], numProcessed := 0, total := 0 }

/-- Removing the edge `B → D` in the shared-dependency scenario. -/
def sharedRun : Option St := removeDependency 10 "B" "D" sharedSt

/-- The state after `sharedRun`. -/
def sharedEnd : St := sharedRun.getD sharedSt

/-- Re-resolution scenario: module `R` declares the single specifier `s`,
previously resolved to `OLD` (which records `R` as a referrer); re-processing
`R` now resolves `s` to `NEW`. -/
def modOld : Module :=
  { dependencies := [], inverseDependencies := ["R"], path := "OLD", output := outEmpty }

/-- See `modOld`. -/
def modR : Module :=
  { dependencies := [("s", "OLD")], inverseDependencies := [], path := "R", output := outEmpty }

/-- The state of the re-resolution scenario. -/
def reResolveSt : St :=
  { graph := [("R", modR), ("OLD", modOld)], delta := emptyDelta, events := [],
    numProcessed := 0, total := 0 }

/-- Options for the re-resolution scenario: `s` keeps being declared but now
resolves to `NEW`. -/
def reResolveOptions : Options :=
  { resolve := fun _ _ => "NEW"
    transform := fun _ => some { dependencies := ["s"], output := outEmpty }
    onProgress := false
    reverseOrder := false }

/-- Re-processing `R` in the re-resolution scenario. -/
def reResolveRun : Option St := processModule 10 "R" reResolveSt reResolveOptions

/-- The state after `reResolveRun`. -/
def reResolveEnd : St := reResolveRun.getD reResolveSt

/-- Entry-point scenario: the entry point `E` is recorded as a dependency of
`M` (`M` imports the entry file), and `M` drops that edge. -/
def modE : Module :=
  { dependencies := [], inverseDependencies := ["M"], path := "E", output := outEmpty }

/-- See `modE`. -/
def modM : Module :=
  { dependencies := [("e", "E")], inverseDependencies := [], path := "M", output := outEmpty }

/-- The state of the entry-point scenario. -/
def entrySt : St :=
  { graph := [("E", modE), ("M", modM)], delta := emptyDelta, events := [],
    numProcessed := 0, total := 0 }

/-- The entry-point scenario's graph, with `E` an entry point. -/
def entryGraphC4 : Graph := { dependencies := entrySt.graph, entryPoints := ["E"] }

/-- Removing the edge `M → E` in the entry-point scenario. -/
def entryRun : Option St := removeDependency 10 "M" "E" entrySt

/-- The state after `entryRun`. -/
def entryEnd : St := entryRun.getD entrySt

/-- A module `M` that depends on `N` while the entry point `E` is not a
dependency of anything. -/
def modMdep : Module :=
  { dependencies := [("n", "N")], inverseDependencies := [], path := "M", output := outEmpty }

/-- See `modMdep`. -/
def modN : Module :=
  { dependencies := [], inverseDependencies := ["M"], path := "N", output := outEmpty }

/-- The state of the safe entry-point scenario. -/
def entrySafeSt : St :=
  { graph := [("E", sampleModule "E"), ("M", modMdep), ("N", modN)]
    delta := emptyDelta, events := [], numProcessed := 0, total := 0 }

/-- The safe entry-point scenario's graph. -/
def entrySafeGraph : Graph := { dependencies := entrySafeSt.graph, entryPoints := ["E"] }

/-- Removing the edge `M → N` in the safe entry-point scenario. -/
def entrySafeRun : Option St := removeDependency 10 "M" "N" entrySafeSt

/-- The state after `entrySafeRun`. -/
def entrySafeEnd : St := entrySafeRun.getD entrySafeSt

/-! ### Association-list and set lemmas -/

theorem mapGet_mapSet_self (m : List (Path × α)) (k : Path) (v : α) :
    mapGet (mapSet m k v) k = some v := by
  induction m with
  | nil => simp [mapSet, mapGet]
  | cons e rest ih =>
    by_cases h : e.1 = k
    · simp [mapSet, mapGet, h]
    · simp [mapSet, mapGet, h, ih]

theorem mapGet_mapSet_ne (m : List (Path × α)) (k k' : Path) (v : α) (h : k ≠ k') :
    mapGet (mapSet m k v) k' = mapGet m k' := by
  induction m with
  | nil => simp [mapSet, mapGet, h]
  | cons e rest ih =>
    by_cases he : e.1 = k
    · simp [mapSet, mapGet, he, h]
    · by_cases he' : e.1 = k'
      · simp [mapSet, mapGet, he, he', Ne.symm h]
      · simp [mapSet, mapGet, he, he', ih]

theorem isSome_mapGet_mapSet (m : List (Path × α)) (k k' : Path) (v : α) :
    (mapGet (mapSet m k v) k').isSome = true ↔
      ((mapGet m k').isSome = true ∨ k' = k) := by
  by_cases h : k' = k
  · subst h; simp [mapGet_mapSet_self]
  · rw [mapGet_mapSet_ne m k k' v (fun he => h he.symm)]
    simp [h]

theorem mapGet_mapDeleteB_ne (m : List (Path × α)) (k k' : Path) (h : k ≠ k') :
    mapGet (mapDeleteB m k).1 k' = mapGet m k' := by
  induction m with
  | nil => simp [mapDeleteB, mapGet]
  | cons e rest ih =>
    by_cases he : e.1 = k
    · simp [mapDeleteB, mapGet, he, fun hh : k = k' => h hh]
    · by_cases he' : e.1 = k'
      · simp [mapDeleteB, mapGet, he, he', Ne.symm h]
      · simp [mapDeleteB, mapGet, he, he', ih]

theorem mapGet_none_mapDeleteB (m : List (Path × α)) (k k' : Path)
    (h : mapGet m k' = none) : mapGet (mapDeleteB m k).1 k' = none := by
  induction m with
  | nil => simp [mapDeleteB, mapGet]
  | cons e rest ih =>
    by_cases he' : e.1 = k'
    · simp [mapGet, he'] at h
    · simp only [mapGet, if_neg he'] at h
      by_cases he : e.1 = k
      · simpa [mapDeleteB, he] using h
      · simp [mapDeleteB, mapGet, he, he', ih h]

theorem mapKeys_nil : mapKeys ([] : List (Path × α)) = [] := rfl

theorem mapKeys_cons (e : Path × α) (rest : List (Path × α)) :
    mapKeys (e :: rest) = e.1 :: mapKeys rest := rfl

theorem mapGet_eq_none_of_not_mem_keys (m : List (Path × α)) (k : Path)
    (h : k ∉ mapKeys m) : mapGet m k = none := by
  induction m with
  | nil => simp [mapGet]
  | cons e rest ih =>
    rw [mapKeys_cons, List.mem_cons] at h
    push_neg at h
    simp [mapGet, Ne.symm h.1, ih h.2]

theorem isSome_mapGet_of_mem_keys (m : List (Path × α)) (k : Path)
    (h : k ∈ mapKeys m) : (mapGet m k).isSome := by
  induction m with
  | nil => simp [mapKeys_nil] at h
  | cons e rest ih =>
    by_cases he : e.1 = k
    · simp [mapGet, he]
    · rw [mapKeys_cons, List.mem_cons] at h
      rcases h with h | h
      · exact absurd h.symm he
      · simp [mapGet, he, ih h]

theorem mem_keys_of_isSome_mapGet (m : List (Path × α)) (k : Path)
    (h : (mapGet m k).isSome) : k ∈ mapKeys m := by
  induction m with
  | nil => simp [mapGet] at h
  | cons e rest ih =>
    by_cases he : e.1 = k
    · rw [mapKeys_cons, he]; exact List.mem_cons_self _ _
    · simp only [mapGet, if_neg he] at h
      rw [mapKeys_cons]
      exact List.mem_cons_of_mem _ (ih h)

theorem mapDeleteB_snd (m : List (Path × α)) (k : Path) :
    (mapDeleteB m k).2 = (mapGet m k).isSome := by
  induction m with
  | nil => simp [mapDeleteB, mapGet]
  | cons e rest ih =>
    by_cases he : e.1 = k
    · simp [mapDeleteB, mapGet, he]
    · simp [mapDeleteB, mapGet, he, ih]

theorem mapKeys_mapDeleteB_sublist (m : List (Path × α)) (k : Path) :
    (mapKeys (mapDeleteB m k).1).Sublist (mapKeys m) := by
  induction m with
  | nil => simp [mapDeleteB, mapKeys_nil]
  | cons e rest ih =>
    by_cases he : e.1 = k
    · simp only [mapDeleteB, he, if_pos, mapKeys_cons]
      exact (List.Sublist.refl _).cons _
    · simp only [mapDeleteB, he, if_neg, not_false_iff, mapKeys_cons]
      exact ih.cons₂ _

theorem mapGet_mapDeleteB_self (m : List (Path × α)) (k : Path)
    (h : (mapKeys m).Nodup) : mapGet (mapDeleteB m k).1 k = none := by
  induction m with
  | nil => simp [mapDeleteB, mapGet]
  | cons e rest ih =>
    rw [mapKeys_cons, List.nodup_cons] at h
    by_cases he : e.1 = k
    · subst he
      simp only [mapDeleteB, if_pos rfl]
      exact mapGet_eq_none_of_not_mem_keys rest e.1 h.1
    · simp [mapDeleteB, mapGet, he, ih h.2]

theorem mapKeys_mapSet (m : List (Path × α)) (k : Path) (v : α) :
    mapKeys (mapSet m k v) = if k ∈ mapKeys m then mapKeys m else mapKeys m ++ [k] := by
  induction m with
  | nil => simp [mapSet, mapKeys]
  | cons e rest ih =>
    by_cases he : e.1 = k
    · subst he
      simp [mapSet, mapKeys_cons]
    · have hne : ¬ k = e.1 := fun hh => he hh.symm
      simp only [mapSet, if_neg he, mapKeys_cons, ih, List.mem_cons, hne, false_or]
      by_cases hk : k ∈ mapKeys rest
      · simp [hk]
      · simp [hk]

theorem mapKeys_mapSet_nodup (m : List (Path × α)) (k : Path) (v : α)
    (h : (mapKeys m).Nodup) : (mapKeys (mapSet m k v)).Nodup := by
  rw [mapKeys_mapSet]
  by_cases hk : k ∈ mapKeys m
  · simpa [hk] using h
  · simp only [hk, if_neg, not_false_iff]
    simpa [List.nodup_append] using ⟨h, hk⟩

theorem mem_setAdd (s : List Path) (x y : Path) :
    y ∈ setAdd s x ↔ y ∈ s ∨ y = x := by
  by_cases h : x ∈ s
  · constructor
    · intro hy; simp [setAdd, h] at hy; exact Or.inl hy
    · intro hy
      rcases hy with hy | hy
      · simpa [setAdd, h] using hy
      · subst hy; simp [setAdd, h]
  · simp [setAdd, h, or_comm]

theorem mem_setAdd_self (s : List Path) (x : Path) : x ∈ setAdd s x := by
  simp [mem_setAdd]

theorem mem_setAdd_of_mem (s : List Path) (x y : Path) (h : y ∈ s) : y ∈ setAdd s x := by
  simp [mem_setAdd, h]

theorem mem_listRemove (s : List Path) (x y : Path) :
    y ∈ listRemove s x ↔ y ∈ s ∧ y ≠ x := by
  simp [listRemove]

/-! ### Reconciliation lemmas (the `added` / `deleted` loops of
`traverseDependencies`) -/

/-- Folding `mapSet` over a list of bindings: a key is present afterwards iff
it was present before or occurs in the list. -/
theorem isSome_foldl_mapSet (l : List (Path × Module)) (acc : List (Path × Module))
    (p : Path) :
    (mapGet (l.foldl (fun m e => mapSet m e.1 e.2) acc) p).isSome = true ↔
      ((mapGet acc p).isSome = true ∨ p ∈ mapKeys l) := by
  induction l generalizing acc with
  | nil => simp [mapKeys_nil]
  | cons e rest ih =>
    rw [List.foldl_cons, ih, isSome_mapGet_mapSet, mapKeys_cons, List.mem_cons]
    tauto

theorem mapKeys_foldl_mapSet_nodup (l : List (Path × Module))
    (acc : List (Path × Module)) (h : (mapKeys acc).Nodup) :
    (mapKeys (l.foldl (fun m e => mapSet m e.1 e.2) acc)).Nodup := by
  induction l generalizing acc with
  | nil => exact h
  | cons e rest ih => exact ih _ (mapKeys_mapSet_nodup _ _ _ h)

/-- Paths not mentioned by the remaining deletion list are untouched by the
reconciliation fold. -/
theorem reconStep_foldl_skip (mo : List (Path × Module)) (l : List Path)
    (acc : List (Path × Module) × List Path) (p : Path) (hp : p ∉ l) :
    mapGet (l.foldl (reconStep mo) acc).1 p = mapGet acc.1 p ∧
      ((p ∈ (l.foldl (reconStep mo) acc).2) ↔ p ∈ acc.2) := by
  induction l generalizing acc with
  | nil => simp
  | cons q rest ih =>
    rw [List.mem_cons] at hp
    push_neg at hp
    rw [List.foldl_cons]
    have step : mapGet (reconStep mo acc q).1 p = mapGet acc.1 p ∧
        ((p ∈ (reconStep mo acc q).2) ↔ p ∈ acc.2) := by
      unfold reconStep
      by_cases hc : ¬ (mapDeleteB acc.1 q).2 ∨ mapHas mo q
      · simp only [if_pos hc]
        exact ⟨mapGet_mapDeleteB_ne _ _ _ (Ne.symm hp.1),
          by rw [mem_setAdd]; simp [hp.1]⟩
      · simp only [if_neg hc]
        exact ⟨mapGet_mapDeleteB_ne _ _ _ (Ne.symm hp.1), by simp⟩
    obtain ⟨h1, h2⟩ := ih (reconStep mo acc q) hp.2
    exact ⟨h1.trans step.1, h2.trans step.2⟩

/-- Once a path has been cancelled out of `added`, the rest of the fold never
reintroduces it. -/
theorem reconStep_foldl_none (mo : List (Path × Module)) (l : List Path)
    (acc : List (Path × Module) × List Path) (p : Path)
    (hp : mapGet acc.1 p = none) :
    mapGet (l.foldl (reconStep mo) acc).1 p = none := by
  induction l generalizing acc with
  | nil => exact hp
  | cons q rest ih =>
    rw [List.foldl_cons]
    refine ih _ ?_
    unfold reconStep
    by_cases hc : ¬ (mapDeleteB acc.1 q).2 ∨ mapHas mo q
    · simp only [if_pos hc]
      exact mapGet_none_mapDeleteB _ _ _ hp
    · simp only [if_neg hc]
      exact mapGet_none_mapDeleteB _ _ _ hp

theorem reconStep_foldl_nodup (mo : List (Path × Module)) (l : List Path)
    (acc : List (Path × Module) × List Path) (h : (mapKeys acc.1).Nodup) :
    (mapKeys (l.foldl (reconStep mo) acc).1).Nodup := by
  induction l generalizing acc with
  | nil => exact h
  | cons q rest ih =>
    rw [List.foldl_cons]
    refine ih _ ?_
    unfold reconStep
    by_cases hc : ¬ (mapDeleteB acc.1 q).2 ∨ mapHas mo q
    · simp only [if_pos hc]
      exact ((mapKeys_mapDeleteB_sublist acc.1 q).nodup h)
    · simp only [if_neg hc]
      exact ((mapKeys_mapDeleteB_sublist acc.1 q).nodup h)

/-- The heart of the reconciliation rule: a path that is in `delta.deleted`
(once) and in the folded `added` map is always cancelled out of the result's
`added`, and lands in the result's `deleted` exactly when it is also in
`delta.modified`. -/
theorem reconcile_spec (delta : Delta) (p : Path)
    (hnd : delta.deleted.Nodup) (hp : p ∈ delta.deleted)
    (hadd : p ∈ mapKeys delta.added ∨ p ∈ mapKeys delta.modified) :
    mapGet (reconcile delta).added p = none ∧
      ((p ∈ (reconcile delta).deleted) ↔ p ∈ mapKeys delta.modified) := by
  obtain ⟨l₁, l₂, hdec⟩ := List.append_of_mem hp
  rw [hdec] at hnd
  rw [List.nodup_middle, List.nodup_cons, List.mem_append] at hnd
  push_neg at hnd
  obtain ⟨⟨hp1, hp2⟩, -⟩ := hnd
  unfold reconcile
  dsimp only
  set added1 := delta.modified.foldl (fun m e => mapSet m e.1 e.2)
    (delta.added.foldl (fun m e => mapSet m e.1 e.2) []) with hadded1
  set mo := delta.modified.foldl (fun m e => mapSet m e.1 e.2) [] with hmo
  have hmoKeys : mapHas mo p = true ↔ p ∈ mapKeys delta.modified := by
    rw [hmo]
    unfold mapHas
    rw [isSome_foldl_mapSet]
    simp [mapGet]
  have hisSome : (mapGet added1 p).isSome = true := by
    rw [hadded1, isSome_foldl_mapSet, isSome_foldl_mapSet]
    simp only [mapGet, Option.isSome_none]
    tauto
  have hnodup1 : (mapKeys added1).Nodup := by
    rw [hadded1]
    exact mapKeys_foldl_mapSet_nodup _ _ (mapKeys_foldl_mapSet_nodup _ _ (by simp [mapKeys_nil]))
  rw [hdec, List.foldl_append, List.foldl_cons]
  set acc1 := l₁.foldl (reconStep mo) (added1, []) with hacc1
  obtain ⟨ha1, hd1⟩ := reconStep_foldl_skip mo l₁ (added1, []) p hp1
  have hisSome1 : (mapGet acc1.1 p).isSome = true := by
    rw [hacc1, ha1]; exact hisSome
  have hnodupAcc : (mapKeys acc1.1).Nodup := by
    rw [hacc1]; exact reconStep_foldl_nodup _ _ _ hnodup1
  have hmarked : (mapDeleteB acc1.1 p).2 = true := by
    rw [mapDeleteB_snd]; exact hisSome1
  have hstep1 : mapGet (reconStep mo acc1 p).1 p = none := by
    unfold reconStep
    by_cases hc : ¬ (mapDeleteB acc1.1 p).2 ∨ mapHas mo p
    · simp only [if_pos hc]
      exact mapGet_mapDeleteB_self _ _ hnodupAcc
    · simp only [if_neg hc]
      exact mapGet_mapDeleteB_self _ _ hnodupAcc
  have hpacc1 : p ∉ acc1.2 := by
    rw [hd1]; simp
  have hstep2 : (p ∈ (reconStep mo acc1 p).2) ↔ p ∈ mapKeys delta.modified := by
    unfold reconStep
    by_cases hmod : mapHas mo p = true
    · have hc : ¬ (mapDeleteB acc1.1 p).2 ∨ mapHas mo p := Or.inr hmod
      simp only [if_pos hc]
      constructor
      · intro _; exact hmoKeys.mp hmod
      · intro _; exact mem_setAdd_self _ _
    · have hc : ¬ (¬ (mapDeleteB acc1.1 p).2 ∨ mapHas mo p) := by
        rw [hmarked]
        simpa using hmod
      simp only [if_neg hc]
      constructor
      · intro hmem; exact absurd hmem hpacc1
      · intro hmem; exact absurd (hmoKeys.mpr hmem) hmod
  obtain ⟨ha2, hd2⟩ := reconStep_foldl_skip mo l₂ (reconStep mo acc1 p) p hp2
  constructor
  · exact reconStep_foldl_none mo l₂ _ p hstep1
  · rw [hd2]; exact hstep2

/-- A changed path without a module record is skipped by the root-collection
phase. -/
theorem collectRoots_skip (g : List (Path × Module)) (l₁ l₂ : List Path) (p : Path)
    (d : Delta) (h : mapGet g p = none) :
    collectRoots g (l₁ ++ p :: l₂) d = collectRoots g (l₁ ++ l₂) d := by
  unfold collectRoots
  rw [List.foldl_append, List.foldl_append, List.foldl_cons]
  congr 1
  simp [h]

/-! ### Structural facts about the module table -/

theorem mapGet_mem : ∀ (m : List (Path × α)) (k : Path) (v : α),
    mapGet m k = some v → (k, v) ∈ m
  | [], k, v, h => by simp [mapGet] at h
  | e :: rest, k, v, h => by
    by_cases he : e.1 = k
    · simp only [mapGet, if_pos he] at h
      rw [Option.some_inj] at h
      have : e = (k, v) := by
        rw [← he, ← h]
      rw [this] at *
      exact List.mem_cons_self _ _
    · simp only [mapGet, if_neg he] at h
      exact List.mem_cons_of_mem _ (mapGet_mem rest k v h)

theorem mem_mapGet_of_nodup (m : List (Path × α)) (k : Path) (v : α)
    (hnd : (mapKeys m).Nodup) (h : (k, v) ∈ m) : mapGet m k = some v := by
  induction m with
  | nil => simp at h
  | cons e rest ih =>
    rw [mapKeys_cons, List.nodup_cons] at hnd
    rcases List.mem_cons.mp h with h | h
    · rw [← h]
      simp [mapGet]
    · by_cases he : e.1 = k
      · exfalso
        apply hnd.1
        rw [he]
        exact List.mem_map_of_mem Prod.fst h
      · simp [mapGet, he, ih hnd.2 h]

theorem mapSet_mem_elim (m : List (Path × α)) (k : Path) (v : α) (e : Path × α)
    (h : e ∈ mapSet m k v) : e ∈ m ∨ e = (k, v) := by
  induction m with
  | nil =>
    simp [mapSet] at h
    exact Or.inr h
  | cons f rest ih =>
    by_cases hf : f.1 = k
    · simp only [mapSet, if_pos hf] at h
      rcases List.mem_cons.mp h with h | h
      · exact Or.inr h
      · exact Or.inl (List.mem_cons_of_mem _ h)
    · simp only [mapSet, if_neg hf] at h
      rcases List.mem_cons.mp h with h | h
      · rw [h]
        exact Or.inl (List.mem_cons_self _ _)
      · rcases ih h with h | h
        · exact Or.inl (List.mem_cons_of_mem _ h)
        · exact Or.inr h

theorem mapDeleteB_sublist (m : List (Path × α)) (k : Path) :
    ((mapDeleteB m k).1).Sublist m := by
  induction m with
  | nil => simp [mapDeleteB]
  | cons e rest ih =>
    by_cases he : e.1 = k
    · simp only [mapDeleteB, if_pos he]
      exact (List.Sublist.refl _).cons _
    · simp only [mapDeleteB, if_neg he]
      exact ih.cons₂ _

theorem mem_depTargets_of (g : List (Path × Module)) (k : Path) (mm : Module)
    (hm : (k, mm) ∈ g) (d : Path × Path) (hd : d ∈ mm.dependencies) :
    d.2 ∈ depTargets g := by
  unfold depTargets
  rw [List.mem_flatten]
  exact ⟨mm.dependencies.map Prod.snd,
    List.mem_map_of_mem (fun e => e.2.dependencies.map Prod.snd) hm,
    List.mem_map_of_mem Prod.snd hd⟩

theorem exists_of_mem_depTargets (g : List (Path × Module)) (x : Path)
    (hx : x ∈ depTargets g) : ∃ e ∈ g, ∃ d ∈ e.2.dependencies, d.2 = x := by
  unfold depTargets at hx
  rw [List.mem_flatten] at hx
  obtain ⟨l, hl, hxl⟩ := hx
  rw [List.mem_map] at hl
  obtain ⟨e, he, rfl⟩ := hl
  rw [List.mem_map] at hxl
  obtain ⟨d, hd, rfl⟩ := hxl
  exact ⟨e, he, d, hd, rfl⟩

theorem depTargets_subset (g g' : List (Path × Module))
    (hnd' : (mapKeys g').Nodup)
    (hprov : ∀ q m', mapGet g' q = some m' →
      ∃ m, mapGet g q = some m ∧ m'.path = m.path ∧
        m'.dependencies = m.dependencies ∧ m'.output = m.output ∧
        ∀ r ∈ m'.inverseDependencies, r ∈ m.inverseDependencies)
    (x : Path) (hx : x ∈ depTargets g') : x ∈ depTargets g := by
  obtain ⟨e, he, d, hd, rfl⟩ := exists_of_mem_depTargets g' x hx
  obtain ⟨m, hm, -, hdeps, -⟩ :=
    hprov e.1 e.2 (mem_mapGet_of_nodup g' e.1 e.2 hnd' he)
  exact mem_depTargets_of g e.1 m (mapGet_mem _ _ _ hm) d (by rw [← hdeps]; exact hd)

theorem WFg_path (g : List (Path × Module)) (h : WFg g) (k : Path) (m : Module)
    (hm : mapGet g k = some m) : m.path = k :=
  h.2 (k, m) (mapGet_mem _ _ _ hm)

theorem WFg_mapSet (g : List (Path × Module)) (k : Path) (v : Module)
    (h : WFg g) (hv : v.path = k) : WFg (mapSet g k v) := by
  refine ⟨mapKeys_mapSet_nodup _ _ _ h.1, ?_⟩
  intro e he
  rcases mapSet_mem_elim g k v e he with he | he
  · exact h.2 e he
  · rw [he]
    exact hv

theorem WFg_mapDeleteB (g : List (Path × Module)) (k : Path) (h : WFg g) :
    WFg (mapDeleteB g k).1 :=
  ⟨(mapKeys_mapDeleteB_sublist g k).nodup h.1,
    fun e he => h.2 e ((mapDeleteB_sublist g k).subset he)⟩

theorem progressPairs_append (l₁ l₂ : List Event) :
    progressPairs (l₁ ++ l₂) = progressPairs l₁ ++ progressPairs l₂ := by
  unfold progressPairs
  exact List.filterMap_append _ _ _

/-! ### The removal engine's invariants -/

theorem remRel_refl (P : Path) (ts : List Path) (st : St) : remRel P ts st st :=
  ⟨rfl, rfl, fun _ hx => hx, rfl, rfl, ⟨[], by simp, rfl⟩,
    fun hwf => ⟨hwf, fun _ m' hm' => ⟨m', hm', rfl, rfl, rfl, fun _ hr => hr⟩,
      fun _ m hm r hr _ _ => ⟨m, hm, hr⟩, fun _ _ _ => rfl⟩⟩

theorem remRel_event (P : Path) (ts : List Path) (st : St) (ev : Event)
    (hp : progressPairs [ev] = []) :
    remRel P ts st { st with events := st.events ++ [ev] } :=
  ⟨rfl, rfl, fun _ hx => hx, rfl, rfl, ⟨[ev], rfl, hp⟩,
    fun hwf => ⟨hwf, fun _ m' hm' => ⟨m', hm', rfl, rfl, rfl, fun _ hr => hr⟩,
      fun _ m hm r hr _ _ => ⟨m, hm, hr⟩, fun _ _ _ => rfl⟩⟩

theorem remRel_comp (P : Path) (ts₁ ts₂ : List Path) (st st₁ st₂ : St)
    (h₁ : remRel P ts₁ st st₁) (h₂ : remRel P ts₂ st₁ st₂) :
    remRel P (ts₁ ++ ts₂) st st₂ := by
  obtain ⟨a1, a2, a3, a4, a5, ⟨l1, e1, p1⟩, w1⟩ := h₁
  obtain ⟨b1, b2, b3, b4, b5, ⟨l2, e2, p2⟩, w2⟩ := h₂
  refine ⟨b1.trans a1, b2.trans a2, fun x hx => b3 x (a3 x hx), b4.trans a4, b5.trans a5,
    ⟨l1 ++ l2, by rw [e2, e1, List.append_assoc],
      by rw [progressPairs_append, p1, p2]; rfl⟩, ?_⟩
  intro hwf
  obtain ⟨wf1, prov1, keep1, frame1⟩ := w1 hwf
  obtain ⟨wf2, prov2, keep2, frame2⟩ := w2 wf1
  refine ⟨wf2, ?_, ?_, ?_⟩
  · intro q m' hm'
    obtain ⟨mm, hmm, hp, hd, ho, hi⟩ := prov2 q m' hm'
    obtain ⟨m0, hm0, hp0, hd0, ho0, hi0⟩ := prov1 q mm hmm
    exact ⟨m0, hm0, hp.trans hp0, hd.trans hd0, ho.trans ho0,
      fun r hr => hi0 r (hi r hr)⟩
  · intro q m hm r hr hrP hrD
    obtain ⟨m1, hm1, hr1⟩ := keep1 q m hm r hr hrP (fun hc => hrD (b3 _ hc))
    exact keep2 q m1 hm1 r hr1 hrP hrD
  · intro q hq hqd
    rw [List.mem_append] at hq
    push_neg at hq
    have hqd1 : q ∉ depTargets st₁.graph :=
      fun hc => hqd (depTargets_subset st.graph st₁.graph wf1.1 prov1 q hc)
    rw [frame2 q hq.2 hqd1, frame1 q hq.1 hqd]

theorem remStep_one_none (fuel : Nat) (p t : Path) (st : St)
    (hget : mapGet st.graph t = none) :
    remStep (fuel + 1) (RemCall.one p t) st =
      some { st with events := st.events ++ [Event.removeCall p t] } := by
  simp only [remStep, hget]

theorem remStep_one_keep (fuel : Nat) (p t : Path) (st : St) (mm : Module)
    (hget : mapGet st.graph t = some mm)
    (hne : (listRemove mm.inverseDependencies p).isEmpty = false) :
    remStep (fuel + 1) (RemCall.one p t) st =
      some { st with
        events := st.events ++ [Event.removeCall p t],
        graph := mapSet st.graph t
          { mm with inverseDependencies := listRemove mm.inverseDependencies p } } := by
  simp only [remStep, hget, hne]
  simp

theorem remStep_one_del (fuel : Nat) (p t : Path) (st : St) (mm : Module)
    (hget : mapGet st.graph t = some mm)
    (hemp : (listRemove mm.inverseDependencies p).isEmpty = true) :
    remStep (fuel + 1) (RemCall.one p t) st =
      match remStep fuel (RemCall.all mm.path (mm.dependencies.map Prod.snd))
          { st with
            events := st.events ++ [Event.removeCall p t],
            graph := mapSet st.graph t
              { mm with inverseDependencies := listRemove mm.inverseDependencies p },
            delta := { st.delta with deleted := setAdd st.delta.deleted mm.path } } with
      | none => none
      | some st2 => some { st2 with graph := (mapDeleteB st2.graph mm.path).1 } := by
  simp only [remStep, hget, hemp]
  simp

theorem remStep_all_nil (fuel : Nat) (p : Path) (st : St) :
    remStep (fuel + 1) (RemCall.all p []) st = some st := by
  simp only [remStep]

theorem remStep_all_cons (fuel : Nat) (p q : Path) (ps : List Path) (st : St) :
    remStep (fuel + 1) (RemCall.all p (q :: ps)) st =
      match remStep fuel (RemCall.one p q) st with
      | none => none
      | some st1 => remStep fuel (RemCall.all p ps) st1 := by
  simp only [remStep]

theorem remStep_old_nil (fuel : Nat) (m : Path) (current : List (Path × Path)) (st : St) :
    remStep (fuel + 1) (RemCall.old m [] current) st = some st := by
  simp only [remStep]

theorem remStep_old_cons_has (fuel : Nat) (m : Path) (e : Path × Path)
    (rest current : List (Path × Path)) (st : St) (h : mapHas current e.1 = true) :
    remStep (fuel + 1) (RemCall.old m (e :: rest) current) st =
      remStep fuel (RemCall.old m rest current) st := by
  simp only [remStep, h]
  rfl

theorem remStep_old_cons_miss (fuel : Nat) (m : Path) (e : Path × Path)
    (rest current : List (Path × Path)) (st : St) (h : mapHas current e.1 = false) :
    remStep (fuel + 1) (RemCall.old m (e :: rest) current) st =
      match remStep fuel (RemCall.one m e.2) st with
      | none => none
      | some st1 => remStep fuel (RemCall.old m rest current) st1 := by
  simp only [remStep, h]
  rfl

/-- The master invariant of the removal engine: any completing removal run
satisfies `remRel` for its parent and direct targets. -/
theorem remStep_spec : ∀ (fuel : Nat) (call : RemCall) (st st' : St),
    remStep fuel call st = some st' →
    remRel (remParent call) (remTargets call) st st' := by
  intro fuel
  induction fuel with
  | zero =>
    intro call st st' h
    simp [remStep] at h
  | succ fuel ih =>
    intro call st st' h
    cases call with
    | one parentPath absolutePath =>
      cases hget : mapGet st.graph absolutePath with
      | none =>
        rw [remStep_one_none fuel parentPath absolutePath st hget,
          Option.some_inj] at h
        rw [← h]
        exact remRel_event _ _ _ _ rfl
      | some mm =>
        cases hemp : (listRemove mm.inverseDependencies parentPath).isEmpty with
        | false =>
          rw [remStep_one_keep fuel parentPath absolutePath st mm hget hemp,
            Option.some_inj] at h
          rw [← h]
          clear h
          refine ⟨rfl, rfl, fun _ hx => hx, rfl, rfl, ⟨_, rfl, rfl⟩, ?_⟩
          intro hwf
          have hpath : mm.path = absolutePath := WFg_path st.graph hwf _ _ hget
          refine ⟨WFg_mapSet _ _ _ hwf (by rw [← hpath]), ?_, ?_, ?_⟩
          · intro q m' hm'
            by_cases hq : q = absolutePath
            · subst hq
              rw [mapGet_mapSet_self, Option.some_inj] at hm'
              exact ⟨mm, hget, by rw [← hm'], by rw [← hm'],
                by rw [← hm'],
                by
                  rw [← hm']
                  intro r hr
                  exact ((mem_listRemove _ _ _).mp hr).1⟩
            · rw [mapGet_mapSet_ne _ _ _ _ (fun hc => hq hc.symm)] at hm'
              exact ⟨m', hm', rfl, rfl, rfl, fun _ hr => hr⟩
          · intro q m hm r hr hrP _
            by_cases hq : q = absolutePath
            · subst hq
              rw [hget, Option.some_inj] at hm
              refine ⟨{ mm with inverseDependencies := listRemove mm.inverseDependencies parentPath },
                mapGet_mapSet_self _ _ _, ?_⟩
              rw [mem_listRemove]
              exact ⟨by rw [hm]; exact hr, hrP⟩
            · exact ⟨m, by
                rw [mapGet_mapSet_ne _ _ _ _ (fun hc => hq hc.symm)]
                exact hm, hr⟩
          · intro q hq _
            have hq' : q ≠ absolutePath := by
              intro hc
              exact hq (by rw [hc]; exact List.mem_cons_self _ _)
            exact mapGet_mapSet_ne _ _ _ _ (Ne.symm hq')
        | true =>
          rw [remStep_one_del fuel parentPath absolutePath st mm hget hemp] at h
          cases hrec : remStep fuel (RemCall.all mm.path (mm.dependencies.map Prod.snd))
              { st with
                events := st.events ++ [Event.removeCall parentPath absolutePath],
                graph := mapSet st.graph absolutePath
                  { mm with inverseDependencies := listRemove mm.inverseDependencies parentPath },
                delta := { st.delta with deleted := setAdd st.delta.deleted mm.path } } with
          | none =>
            rw [hrec] at h
            exact absurd h (by simp)
          | some st2 =>
            rw [hrec] at h
            rw [Option.some_inj] at h
            rw [← h]
            clear h
            have hall := ih _ _ _ hrec
            obtain ⟨b1, b2, b3, b4, b5, ⟨l2, e2, p2⟩, w2⟩ := hall
            have hinv : listRemove mm.inverseDependencies parentPath = [] :=
              List.isEmpty_iff.mp hemp
            refine ⟨b1, b2, ?_, b4, b5,
              ⟨[Event.removeCall parentPath absolutePath] ++ l2,
                by simp [e2],
                by rw [progressPairs_append, p2]; rfl⟩, ?_⟩
            · intro x hx
              exact b3 x (mem_setAdd_of_mem _ _ _ hx)
            · intro hwf
              have hpath : mm.path = absolutePath := WFg_path st.graph hwf _ _ hget
              have hwfC : WFg (mapSet st.graph absolutePath
                  { mm with inverseDependencies := listRemove mm.inverseDependencies parentPath }) :=
                WFg_mapSet _ _ _ hwf (by rw [← hpath])
              obtain ⟨wf2, prov2, keep2, frame2⟩ := w2 hwfC
              have hprovC : ∀ q m', mapGet (mapSet st.graph absolutePath
                  { mm with inverseDependencies := listRemove mm.inverseDependencies parentPath }) q = some m' →
                  ∃ m, mapGet st.graph q = some m ∧ m'.path = m.path ∧
                    m'.dependencies = m.dependencies ∧ m'.output = m.output ∧
                    ∀ r ∈ m'.inverseDependencies, r ∈ m.inverseDependencies := by
                intro q m' hm'
                by_cases hq : q = absolutePath
                · subst hq
                  rw [mapGet_mapSet_self, Option.some_inj] at hm'
                  exact ⟨mm, hget, by rw [← hm'], by rw [← hm'], by rw [← hm'],
                    by
                      rw [← hm']
                      intro r hr
                      exact ((mem_listRemove _ _ _).mp hr).1⟩
                · rw [mapGet_mapSet_ne _ _ _ _ (fun hc => hq hc.symm)] at hm'
                  exact ⟨m', hm', rfl, rfl, rfl, fun _ hr => hr⟩
              have hmmdel : mm.path ∈ st2.delta.deleted :=
                b3 mm.path (mem_setAdd_self _ _)
              refine ⟨WFg_mapDeleteB _ _ wf2, ?_, ?_, ?_⟩
              · intro q m' hm'
                by_cases hq : q = mm.path
                · rw [hq, mapGet_mapDeleteB_self _ _ wf2.1] at hm'
                  exact absurd hm' (by simp)
                · rw [mapGet_mapDeleteB_ne _ _ _ (fun hc => hq hc.symm)] at hm'
                  obtain ⟨mc, hmc, c1, c2, c3, c4⟩ := prov2 q m' hm'
                  obtain ⟨m0, hm0, d1, d2, d3, d4⟩ := hprovC q mc hmc
                  exact ⟨m0, hm0, c1.trans d1, c2.trans d2, c3.trans d3,
                    fun r hr => d4 r (c4 r hr)⟩
              · intro q m hm r hr hrP hrD
                have hrmm : r ≠ mm.path := by
                  intro hc
                  rw [hc] at hrD
                  exact hrD hmmdel
                by_cases hq : q = absolutePath
                · exfalso
                  rw [hq, hget, Option.some_inj] at hm
                  have : r ∈ listRemove mm.inverseDependencies parentPath := by
                    rw [mem_listRemove]
                    exact ⟨by rw [hm]; exact hr, hrP⟩
                  rw [hinv] at this
                  simp at this
                · have hmC : mapGet (mapSet st.graph absolutePath
                      { mm with inverseDependencies := listRemove mm.inverseDependencies parentPath }) q = some m := by
                    rw [mapGet_mapSet_ne _ _ _ _ (fun hc => hq hc.symm)]
                    exact hm
                  obtain ⟨m2, hm2, hr2⟩ := keep2 q m hmC r hr hrmm hrD
                  refine ⟨m2, ?_, hr2⟩
                  rw [mapGet_mapDeleteB_ne _ _ _ ?_]
                  · exact hm2
                  · intro hc
                    rw [← hpath] at hq
                    exact hq hc.symm
              · intro q hq hqd
                have hq' : q ≠ absolutePath := by
                  intro hc
                  exact hq (by rw [hc]; exact List.mem_cons_self _ _)
                have hqt : q ∉ (mm.dependencies.map Prod.snd : List Path) := by
                  intro hc
                  rw [List.mem_map] at hc
                  obtain ⟨d, hd, rfl⟩ := hc
                  exact hqd (mem_depTargets_of st.graph absolutePath mm
                    (mapGet_mem _ _ _ hget) d hd)
                have hqdC : q ∉ depTargets (mapSet st.graph absolutePath
                    { mm with inverseDependencies := listRemove mm.inverseDependencies parentPath }) := by
                  intro hc
                  exact hqd (depTargets_subset _ _ hwfC.1 hprovC q hc)
                rw [mapGet_mapDeleteB_ne _ _ _ ?_, frame2 q hqt hqdC,
                  mapGet_mapSet_ne _ _ _ _ (Ne.symm hq')]
                intro hc
                rw [← hpath] at hq'
                exact hq' hc.symm
    | all parentPath targets =>
      cases targets with
      | nil =>
        rw [remStep_all_nil, Option.some_inj] at h
        rw [← h]
        exact remRel_refl _ _ _
      | cons q ps =>
        rw [remStep_all_cons] at h
        cases hrec1 : remStep fuel (RemCall.one parentPath q) st with
        | none =>
          rw [hrec1] at h
          exact absurd h (by simp)
        | some st1 =>
          rw [hrec1] at h
          have h1 := ih _ _ _ hrec1
          have h2 := ih _ _ _ h
          exact remRel_comp parentPath [q] ps st st1 st' h1 h2
    | old modulePath previous current =>
      cases previous with
      | nil =>
        rw [remStep_old_nil, Option.some_inj] at h
        rw [← h]
        exact remRel_refl _ _ _
      | cons e rest =>
        cases hhas : mapHas current e.1 with
        | true =>
          rw [remStep_old_cons_has fuel modulePath e rest current st hhas] at h
          have h1 := ih _ _ _ h
          have : remTargets (RemCall.old modulePath (e :: rest) current) =
              remTargets (RemCall.old modulePath rest current) := by
            simp [remTargets, List.filter_cons, hhas]
          rw [remParent, this]
          exact h1
        | false =>
          rw [remStep_old_cons_miss fuel modulePath e rest current st hhas] at h
          cases hrec1 : remStep fuel (RemCall.one modulePath e.2) st with
          | none =>
            rw [hrec1] at h
            exact absurd h (by simp)
          | some st1 =>
            rw [hrec1] at h
            have h1 := ih _ _ _ hrec1
            have h2 := ih _ _ _ h
            have hcomp := remRel_comp modulePath [e.2]
              (remTargets (RemCall.old modulePath rest current)) st st1 st' h1 h2
            have : remTargets (RemCall.old modulePath (e :: rest) current) =
                [e.2] ++ remTargets (RemCall.old modulePath rest current) := by
              simp [remTargets, List.filter_cons, hhas]
            rw [remParent, this]
            exact hcomp

/-! ### The traversal engine's progress invariants -/

theorem pairLe_trans (a b c : Nat × Nat) (h₁ : pairLe a b) (h₂ : pairLe b c) :
    pairLe a c :=
  ⟨h₁.1.trans h₂.1, h₁.2.trans h₂.2⟩

theorem chainPair_append (a b : Nat × Nat) (l₁ l₂ : List (Nat × Nat))
    (h₁ : List.Chain pairLe a l₁) (h₂ : List.Chain pairLe b l₂)
    (hab : pairLe a b) (hall : ∀ x ∈ l₁, pairLe x b) :
    List.Chain pairLe a (l₁ ++ l₂) := by
  induction l₁ generalizing a with
  | nil =>
    cases l₂ with
    | nil => exact List.Chain.nil
    | cons c l =>
      cases h₂ with
      | cons hbc hc => exact List.Chain.cons (pairLe_trans a b c hab hbc) hc
  | cons x l₁ ih =>
    cases h₁ with
    | cons hax hx =>
      exact List.Chain.cons hax
        (ih x hx (hall x (List.mem_cons_self _ _))
          (fun y hy => hall y (List.mem_cons_of_mem _ hy)))

theorem travRel_refl (st : St) : travRel st st :=
  ⟨le_refl _, le_refl _, rfl,
    ⟨[], by simp, fun _ => ⟨List.Chain.nil, by simp [progressPairs]⟩⟩⟩

theorem travRel_of_parts (st st' : St) (l : List Event)
    (hp : st'.numProcessed = st.numProcessed) (ht : st'.total = st.total)
    (he : st'.events = st.events ++ l) (hl : progressPairs l = []) :
    travRel st st' := by
  refine ⟨by omega, by omega, by omega, ⟨l, he, fun _ => ?_⟩⟩
  rw [hl]
  exact ⟨List.Chain.nil, by simp⟩

theorem travRel_comp (st st₁ st₂ : St) (h₁ : travRel st st₁) (h₂ : travRel st₁ st₂) :
    travRel st st₂ := by
  obtain ⟨a1, a2, a3, ⟨l1, e1, w1⟩⟩ := h₁
  obtain ⟨b1, b2, b3, ⟨l2, e2, w2⟩⟩ := h₂
  refine ⟨a1.trans b1, a2.trans b2, by omega, ⟨l1 ++ l2, by simp [e2, e1], ?_⟩⟩
  intro hlt
  obtain ⟨c1, c2⟩ := w1 hlt
  have hlt1 : st₁.numProcessed < st₁.total := by omega
  obtain ⟨d1, d2⟩ := w2 hlt1
  rw [progressPairs_append]
  constructor
  · exact chainPair_append _ _ _ _ c1 d1 ⟨a1, a2⟩ (fun x hx => (c2 x hx).1)
  · intro x hx
    rcases List.mem_append.mp hx with hx | hx
    · exact ⟨pairLe_trans _ _ _ (c2 x hx).1 ⟨b1, b2⟩, (c2 x hx).2⟩
    · exact d2 x hx

/-- A counters-and-events view of a completed removal run. -/
theorem travRel_of_rem (fuel : Nat) (call : RemCall) (st st' : St)
    (h : remStep fuel call st = some st') : travRel st st' := by
  obtain ⟨-, -, -, b4, b5, ⟨l, he, hl⟩, -⟩ := remStep_spec fuel call st st' h
  exact travRel_of_parts st st' l b4 b5 he hl

theorem emitProgress_numProcessed (st : St) (options : Options) :
    (emitProgress st options).numProcessed = st.numProcessed := by
  unfold emitProgress
  split <;> rfl

theorem emitProgress_total (st : St) (options : Options) :
    (emitProgress st options).total = st.total := by
  unfold emitProgress
  split <;> rfl

theorem emitProgress_events (st : St) (options : Options) :
    (emitProgress st options).events =
      st.events ++
        (if options.onProgress then [Event.progress st.numProcessed st.total] else []) := by
  unfold emitProgress
  split <;> simp_all

/-- The stale-specifier removal loop is the identity when every previous
specifier is still in the current specifier set. -/
theorem remStep_old_id : ∀ (prev : List (Path × Path)) (fuel : Nat) (m : Path)
    (cur : List (Path × Path)) (st : St), prev.length < fuel →
    (∀ e ∈ prev, mapHas cur e.1 = true) →
    remStep fuel (RemCall.old m prev cur) st = some st := by
  intro prev
  induction prev with
  | nil =>
    intro fuel m cur st hf _
    cases fuel with
    | zero => simp at hf
    | succ f => exact remStep_old_nil f m cur st
  | cons e rest ih =>
    intro fuel m cur st hf hall
    cases fuel with
    | zero => simp at hf
    | succ f =>
      rw [remStep_old_cons_has f m e rest cur st (hall e (List.mem_cons_self _ _))]
      refine ih f m cur st ?_ (fun x hx => hall x (List.mem_cons_of_mem _ hx))
      simp only [List.length_cons] at hf
      omega

/-- The master progress invariant of the traversal engine: any completing run
satisfies `travRel`. -/
theorem travStep_spec : ∀ (fuel : Nat) (call : TravCall) (st : St)
    (options : Options) (st' : St),
    travStep fuel call st options = some st' → travRel st st' := by
  intro fuel
  induction fuel with
  | zero =>
    intro call st options st' h
    simp [travStep] at h
  | succ fuel ih =>
    intro call st options st' h
    cases call with
    | processModule modulePath =>
      simp only [travStep] at h
      split at h
      · rw [Option.some_inj] at h
        rw [← h]
        exact travRel_refl st
      · split at h
        · exact absurd h (by simp)
        · split at h
          · exact absurd h (by simp)
          · rename_i st1 hrem
            refine travRel_comp st st1 st' ?_ (ih _ _ _ _ h)
            refine travRel_comp st _ st1 ?_ (travRel_of_rem _ _ _ _ hrem)
            exact travRel_of_parts st _ [Event.transformCall modulePath] rfl rfl rfl rfl
    | addDependency parentModulePath path =>
      simp only [travStep] at h
      split at h
      · rw [Option.some_inj] at h
        rw [← h]
        exact travRel_of_parts st _ [Event.addCall parentModulePath path] rfl rfl rfl rfl
      · split at h
        · exact absurd h (by simp)
        · rename_i st2 hpm
          rw [Option.some_inj] at h
          rw [← h]
          clear h
          obtain ⟨d1, d2, d3, ⟨l₂, e₂, w₂⟩⟩ := ih _ _ _ _ hpm
          rw [emitProgress_numProcessed] at d1
          rw [emitProgress_total] at d2
          rw [emitProgress_numProcessed, emitProgress_total] at d3
          rw [emitProgress_events] at e₂
          have D1 : st.numProcessed ≤ st2.numProcessed := d1
          have D2 : st.total + 1 ≤ st2.total := d2
          have D3 : st2.total + st.numProcessed = st.total + 1 + st2.numProcessed := d3
          refine ⟨?_, ?_, ?_, ?_⟩
          · rw [emitProgress_numProcessed]
            exact (by omega : st.numProcessed ≤ st2.numProcessed + 1)
          · rw [emitProgress_total]
            exact (by omega : st.total ≤ st2.total)
          · rw [emitProgress_numProcessed, emitProgress_total]
            exact (by omega :
              st2.total + st.numProcessed = st.total + (st2.numProcessed + 1))
          · refine ⟨[Event.addCall parentModulePath path] ++
              (if options.onProgress then
                [Event.progress st.numProcessed (st.total + 1)] else []) ++
              l₂ ++
              (if options.onProgress then
                [Event.progress (st2.numProcessed + 1) st2.total] else []), ?_, ?_⟩
            · rw [emitProgress_events, e₂]
              simp
            · intro hlt
              rw [emitProgress_numProcessed, emitProgress_total]
              obtain ⟨c1, c2⟩ := w₂ (by
                rw [emitProgress_numProcessed, emitProgress_total]
                exact (by omega : st.numProcessed < st.total + 1))
              rw [emitProgress_numProcessed, emitProgress_total] at c1
              by_cases hb : options.onProgress = true
              · have hpp : progressPairs ([Event.addCall parentModulePath path] ++
                    (if options.onProgress then
                      [Event.progress st.numProcessed (st.total + 1)] else []) ++
                    l₂ ++
                    (if options.onProgress then
                      [Event.progress (st2.numProcessed + 1) st2.total] else [])) =
                    (st.numProcessed, st.total + 1) ::
                      (progressPairs l₂ ++ [(st2.numProcessed + 1, st2.total)]) := by
                  rw [hb]
                  simp [progressPairs_append, progressPairs]
                rw [hpp]
                constructor
                · refine List.Chain.cons ⟨le_refl _, by omega⟩ ?_
                  refine chainPair_append (st.numProcessed, st.total + 1)
                    (st2.numProcessed, st2.total) _ _ c1 ?_ ⟨D1, by omega⟩
                    (fun x hx => (c2 x hx).1)
                  exact List.Chain.cons ⟨by omega, le_refl _⟩ List.Chain.nil
                · intro x hx
                  rcases List.mem_cons.mp hx with hx | hx
                  · rw [hx]
                    exact ⟨⟨(by omega : st.numProcessed ≤ st2.numProcessed + 1),
                      (by omega : st.total + 1 ≤ st2.total)⟩,
                      (by omega : st.numProcessed ≤ st.total + 1)⟩
                  · rcases List.mem_append.mp hx with hx | hx
                    · obtain ⟨hx1, hx2⟩ := c2 x hx
                      exact ⟨pairLe_trans _ _ _ hx1
                        ⟨(by omega : st2.numProcessed ≤ st2.numProcessed + 1),
                          le_refl _⟩, hx2⟩
                    · rw [List.mem_singleton.mp hx]
                      exact ⟨⟨le_refl _, le_refl _⟩,
                        (by omega : st2.numProcessed + 1 ≤ st2.total)⟩
              · have hpp : progressPairs ([Event.addCall parentModulePath path] ++
                    (if options.onProgress then
                      [Event.progress st.numProcessed (st.total + 1)] else []) ++
                    l₂ ++
                    (if options.onProgress then
                      [Event.progress (st2.numProcessed + 1) st2.total] else [])) =
                    progressPairs l₂ := by
                  rw [if_neg hb, if_neg hb]
                  simp [progressPairs_append, progressPairs]
                rw [hpp]
                constructor
                · have := chainPair_append (st.numProcessed, st.total)
                    (st.numProcessed, st.total + 1) [] (progressPairs l₂)
                    List.Chain.nil c1 ⟨le_refl _, by omega⟩ (by simp)
                  simpa using this
                · intro x hx
                  obtain ⟨hx1, hx2⟩ := c2 x hx
                  exact ⟨pairLe_trans _ _ _ hx1
                    ⟨(by omega : st2.numProcessed ≤ st2.numProcessed + 1),
                      le_refl _⟩, hx2⟩
    | addAll parentModulePath entries =>
      cases entries with
      | nil =>
        simp only [travStep] at h
        rw [Option.some_inj] at h
        rw [← h]
        exact travRel_refl st
      | cons e rest =>
        simp only [travStep] at h
        split at h
        · exact absurd h (by simp)
        · rename_i st1 hadd
          exact travRel_comp _ _ _ (ih _ _ _ _ hadd) (ih _ _ _ _ h)

/-! ### The claims -/

/-- C1, as stated, is false on the code: in a pass whose delta has `p` in
`added`, `deleted` and `modified` at once, the reconciled result does report
`p` as deleted, but `p` does NOT appear in the result's `added` mapping — the
loop `added.delete(path)` always removes it. -/
theorem c1_counterexample :
    "p" ∈ (reconcile deltaPAM).deleted ∧
      mapGet (reconcile deltaPAM).added "p" = none := by
  decide

/-- C1 (amended): for every pass delta with a path `p` present in `added`, in
`deleted` and in `modified`, the reconciled result reports `p` as deleted and
removes `p` from the result's `added` mapping (the result never reports a path
as both added and deleted). -/
theorem c1_replaced_identity (delta : Delta) (p : Path)
    (hnd : delta.deleted.Nodup) (hdel : p ∈ delta.deleted)
    (hadd : p ∈ mapKeys delta.added) (hmod : p ∈ mapKeys delta.modified) :
    p ∈ (reconcile delta).deleted ∧ mapGet (reconcile delta).added p = none := by
  obtain ⟨h1, h2⟩ := reconcile_spec delta p hnd hdel (Or.inl hadd)
  exact ⟨h2.mpr hmod, h1⟩

/-- C1 witness: the amended statement at the concrete delta `deltaPAM`. -/
theorem c1_witness :
    deltaPAM.deleted.Nodup ∧ "p" ∈ deltaPAM.deleted ∧
      "p" ∈ mapKeys deltaPAM.added ∧ "p" ∈ mapKeys deltaPAM.modified ∧
      ("p" ∈ (reconcile deltaPAM).deleted ∧
        mapGet (reconcile deltaPAM).added "p" = none) :=
  ⟨by decide, by decide, by decide, by decide,
    c1_replaced_identity deltaPAM "p" (by decide) (by decide) (by decide) (by decide)⟩

/-- C3: a path recorded both in the delta's `added` and `deleted` but not in
`modified` is cancelled: the reconciled result contains it neither in `added`
nor in `deleted`. -/
theorem c3_rename_cancellation (delta : Delta) (p : Path)
    (hnd : delta.deleted.Nodup) (hdel : p ∈ delta.deleted)
    (hadd : p ∈ mapKeys delta.added) (hmod : p ∉ mapKeys delta.modified) :
    mapGet (reconcile delta).added p = none ∧ p ∉ (reconcile delta).deleted := by
  obtain ⟨h1, h2⟩ := reconcile_spec delta p hnd hdel (Or.inl hadd)
  exact ⟨h1, fun hmem => hmod (h2.mp hmem)⟩

/-- C3 witness: the statement at the concrete delta `deltaPA`. -/
theorem c3_witness :
    deltaPA.deleted.Nodup ∧ "p" ∈ deltaPA.deleted ∧
      "p" ∈ mapKeys deltaPA.added ∧ "p" ∉ mapKeys deltaPA.modified ∧
      (mapGet (reconcile deltaPA).added "p" = none ∧
        "p" ∉ (reconcile deltaPA).deleted) :=
  ⟨by decide, by decide, by decide, by decide,
    c3_rename_cancellation deltaPA "p" (by decide) (by decide) (by decide) (by decide)⟩

/-- C5, as stated, is false on the code: the progress counters are reset for
every changed path, so over a whole pass with two changed paths the callback
sequence is `(0,1) (0,2) (1,2) (2,2) (0,1) (1,1)` — `processedCount` (and
`totalDiscovered`) drop back after the first root completes, so the whole-pass
sequence is not componentwise nondecreasing. -/
theorem c5_counterexample :
    progRun.isSome = true ∧
      progPairs = [(0, 1), (0, 2), (1, 2), (2, 2), (0, 1), (1, 1)] ∧
      ¬ List.Chain' pairLe progPairs := by
  refine ⟨by decide, by decide, ?_⟩
  rw [show progPairs = [(0, 1), (0, 2), (1, 2), (2, 2), (0, 1), (1, 1)] from by decide]
  intro h
  rw [List.chain'_cons, List.chain'_cons, List.chain'_cons, List.chain'_cons,
    List.chain'_cons] at h
  exact absurd h.2.2.2.1 (by decide)

/-- C5 (amended): over each single changed-path traversal with the progress
callback present, the emitted progress sequence starts at `(0, 1)`, both
counters are componentwise nondecreasing, `processedCount ≤ totalDiscovered`
at every callback, and the final callback has the two equal. -/
theorem c5_single_file_progress (fuel : Nat) (modulePath : Path) (st : St)
    (options : Options) (st' : St)
    (h : traverseDependenciesForSingleFile fuel modulePath st options = some st')
    (hprog : options.onProgress = true) :
    st'.events = st.events ++ st'.events.drop st.events.length ∧
      List.Chain' pairLe (progressPairs (st'.events.drop st.events.length)) ∧
      (∀ x ∈ progressPairs (st'.events.drop st.events.length), x.1 ≤ x.2) ∧
      (progressPairs (st'.events.drop st.events.length)).head? = some (0, 1) ∧
      (∀ x ∈ (progressPairs (st'.events.drop st.events.length)).getLast?,
        x.1 = x.2) := by
  unfold traverseDependenciesForSingleFile at h
  dsimp only at h
  split at h
  · exact absurd h (by simp)
  · rename_i stD hpm
    rw [Option.some_inj] at h
    rw [← h]
    clear h
    obtain ⟨d1, d2, d3, ⟨l₂, e₂, w₂⟩⟩ :=
      travStep_spec fuel (TravCall.processModule modulePath) _ options stD hpm
    rw [emitProgress_numProcessed] at d1
    rw [emitProgress_total] at d2
    rw [emitProgress_numProcessed, emitProgress_total] at d3
    simp only [emitProgress_events, hprog, if_true] at e₂
    have D3 : stD.total = stD.numProcessed + 1 := by
      have : stD.total + 0 = 1 + stD.numProcessed := d3
      omega
    obtain ⟨c1, c2⟩ := w₂ (by
      rw [emitProgress_numProcessed, emitProgress_total]
      exact (by omega : (0 : Nat) < 1))
    rw [emitProgress_numProcessed, emitProgress_total] at c1
    have hev' : (emitProgress { stD with numProcessed := stD.numProcessed + 1 } options).events =
        st.events ++ ([Event.progress 0 1] ++ l₂ ++
          [Event.progress (stD.numProcessed + 1) stD.total]) := by
      simp only [emitProgress_events, hprog, if_true]
      rw [e₂]
      simp
    have hdrop : (emitProgress { stD with numProcessed := stD.numProcessed + 1 } options).events.drop
        st.events.length =
        [Event.progress 0 1] ++ l₂ ++ [Event.progress (stD.numProcessed + 1) stD.total] := by
      rw [hev']
      exact List.drop_left _ _
    have hpp : progressPairs ([Event.progress 0 1] ++ l₂ ++
        [Event.progress (stD.numProcessed + 1) stD.total]) =
        (0, 1) :: (progressPairs l₂ ++ [(stD.numProcessed + 1, stD.total)]) := by
      simp [progressPairs_append, progressPairs]
    refine ⟨?_, ?_, ?_, ?_, ?_⟩
    · rw [hdrop, hev']
    · rw [hdrop, hpp]
      show List.Chain pairLe (0, 1)
        (progressPairs l₂ ++ [(stD.numProcessed + 1, stD.total)])
      refine chainPair_append (0, 1) (stD.numProcessed, stD.total) _ _ c1 ?_
        ⟨by omega, by omega⟩ (fun x hx => (c2 x hx).1)
      exact List.Chain.cons ⟨by omega, le_refl _⟩ List.Chain.nil
    · rw [hdrop, hpp]
      intro x hx
      rcases List.mem_cons.mp hx with hx | hx
      · rw [hx]
        exact (by omega : (0 : Nat) ≤ 1)
      · rcases List.mem_append.mp hx with hx | hx
        · exact (c2 x hx).2
        · rw [List.mem_singleton.mp hx]
          exact (by omega : stD.numProcessed + 1 ≤ stD.total)
    · rw [hdrop, hpp]
      rfl
    · rw [hdrop, hpp]
      intro x hx
      rw [show (0, 1) :: (progressPairs l₂ ++ [(stD.numProcessed + 1, stD.total)]) =
          ((0, 1) :: progressPairs l₂) ++ [(stD.numProcessed + 1, stD.total)] from by
        simp] at hx
      rw [List.getLast?_concat] at hx
      rw [Option.mem_def, Option.some_inj] at hx
      rw [← hx]
      exact (by omega : stD.numProcessed + 1 = stD.total)

/-- C5 witness: the amended statement at the concrete single-file run
`singleRun`. -/
theorem c5_witness :
    traverseDependenciesForSingleFile 10 "A" stModA optsLeaf = some singleEnd ∧
      optsLeaf.onProgress = true ∧
      (singleEnd.events = stModA.events ++ singleEnd.events.drop stModA.events.length ∧
        List.Chain' pairLe (progressPairs (singleEnd.events.drop stModA.events.length)) ∧
        (∀ x ∈ progressPairs (singleEnd.events.drop stModA.events.length), x.1 ≤ x.2) ∧
        (progressPairs (singleEnd.events.drop stModA.events.length)).head? = some (0, 1) ∧
        (∀ x ∈ (progressPairs (singleEnd.events.drop stModA.events.length)).getLast?,
          x.1 = x.2)) :=
  ⟨by decide, rfl,
    c5_single_file_progress 10 "A" stModA optsLeaf singleEnd (by decide) rfl⟩

/-- C6: in the scenario entry `[A]`, `A → [B, C]`, `B → [D]`, `C → [D]`, the
cold start yields the module table `{A, B, C, D}` with
`D.inverseDependencies = {B, C}`, and linearization always orders the table
`[A, B, D, C]`, for either completion order of `B`'s and `C`'s transforms. -/
theorem c6_linearization_determinism :
    (scenarioRun false).isSome = true ∧ (scenarioRun true).isSome = true ∧
      mapKeys (scenarioGraphOf false).dependencies = ["A", "B", "D", "C"] ∧
      mapKeys (scenarioGraphOf true).dependencies = ["A", "B", "D", "C"] ∧
      ("B" ∈ scenarioDInv false ∧ "C" ∈ scenarioDInv false ∧
        (scenarioDInv false).length = 2) ∧
      ("B" ∈ scenarioDInv true ∧ "C" ∈ scenarioDInv true ∧
        (scenarioDInv true).length = 2) := by
  decide

/-- C7: whenever a cold start completes, its result's `added` mapping is the
entire resulting graph table and its `deleted` set is empty. -/
theorem c7_cold_start (fuel : Nat) (graph : Graph) (options : Options)
    (res : Result) (g' : Graph) (ev : List Event)
    (h : initialTraverseDependencies fuel graph options = some (res, g', ev)) :
    res.added = g'.dependencies ∧ res.deleted = [] := by
  unfold initialTraverseDependencies at h
  split at h
  · exact absurd h (by simp)
  · simp only [Option.some_inj, Prod.mk.injEq] at h
    obtain ⟨h1, h2, -⟩ := h
    rw [← h1, ← h2]
    exact ⟨rfl, rfl⟩

/-- C7 witness: the concrete cold start over `gEntryA`. -/
theorem c7_witness :
    initialTraverseDependencies 10 gEntryA optsLeaf = some coldTriple ∧
      coldTriple.1.added = coldTriple.2.1.dependencies ∧
      coldTriple.1.deleted = [] :=
  ⟨by decide,
    (c7_cold_start 10 gEntryA optsLeaf coldTriple.1 coldTriple.2.1 coldTriple.2.2
      (by decide)).1,
    (c7_cold_start 10 gEntryA optsLeaf coldTriple.1 coldTriple.2.1 coldTriple.2.2
      (by decide)).2⟩

/-- C8: adding an edge to a child that already has a record only inserts the
parent into the child's back-references: the child keeps its dependencies and
output, every other module is untouched, the delta and the progress counters
are unchanged, and no transform happens (the only logged event is the
`addDependency` entry itself). -/
theorem c8_add_existing (fuel : Nat) (parentPath path : Path) (st : St)
    (options : Options) (m : Module) (h : mapGet st.graph path = some m) :
    ∃ st', addDependency (fuel + 1) parentPath path st options = some st' ∧
      mapGet st'.graph path =
        some { m with inverseDependencies := setAdd m.inverseDependencies parentPath } ∧
      (∀ q, q ≠ path → mapGet st'.graph q = mapGet st.graph q) ∧
      st'.delta = st.delta ∧
      st'.numProcessed = st.numProcessed ∧
      st'.total = st.total ∧
      st'.events = st.events ++ [Event.addCall parentPath path] := by
  unfold addDependency travStep
  dsimp only
  rw [h]
  exact ⟨_, rfl, mapGet_mapSet_self _ _ _,
    fun q hq => mapGet_mapSet_ne _ _ _ _ (Ne.symm hq), rfl, rfl, rfl, rfl⟩

/-- C8 witness: linking the existing module `A` of `stModA` from a parent `P`. -/
theorem c8_witness :
    mapGet stModA.graph "A" = some (sampleModule "A") ∧
      (∃ st', addDependency 1 "P" "A" stModA optsLeaf = some st' ∧
        mapGet st'.graph "A" =
          some { sampleModule "A" with
            inverseDependencies := setAdd (sampleModule "A").inverseDependencies "P" } ∧
        (∀ q, q ≠ "A" → mapGet st'.graph q = mapGet stModA.graph q) ∧
        st'.delta = stModA.delta ∧
        st'.numProcessed = stModA.numProcessed ∧
        st'.total = stModA.total ∧
        st'.events = stModA.events ++ [Event.addCall "P" "A"]) :=
  ⟨by decide, c8_add_existing 0 "P" "A" stModA optsLeaf (sampleModule "A") (by decide)⟩

/-- C9: a changed path with no module record is silently skipped: the warm
traversal of any path list containing it returns exactly what the traversal
of the list without it returns (no error, no transform, no contribution),
and the other changed paths are still processed. -/
theorem c9_missing_path_skipped (fuel : Nat) (paths1 paths2 : List Path) (p : Path)
    (graph : Graph) (options : Options) (h : mapGet graph.dependencies p = none) :
    traverseDependencies fuel (paths1 ++ p :: paths2) graph options =
      traverseDependencies fuel (paths1 ++ paths2) graph options := by
  unfold traverseDependencies
  rw [collectRoots_skip _ _ _ _ _ h]

/-- C9 witness: skipping the unknown path `x` in a pass over `gModA`. -/
theorem c9_witness :
    mapGet gModA.dependencies "x" = none ∧
      traverseDependencies 10 ([] ++ "x" :: ["A"]) gModA optsLeaf =
        traverseDependencies 10 ([] ++ ["A"]) gModA optsLeaf :=
  ⟨by decide, c9_missing_path_skipped 10 [] ["A"] "x" gModA optsLeaf (by decide)⟩

/-- C2: removing an edge parent→child over a wellformed table: if the child
keeps another referrer it stays in the graph with exactly its remaining
referrers and nothing is marked deleted; otherwise it is marked deleted and
its record is removed, the removal cascading through its dependencies — and
in every case a module owning a back-reference from a path that is neither
the removal's parent nor deleted in this run keeps that back-reference and
its record (a module still referenced elsewhere is never removed).  The final
conjunct instances the cascade on the concrete scenario `cascadeSt` (`Y`
becomes unreferenced and is removed, `Z` survives with referrer `W`). -/
theorem c2_remove_dependency (fuel : Nat) (parentPath childPath : Path)
    (st st' : St) (m : Module) (hwf : WFg st.graph)
    (hm : mapGet st.graph childPath = some m)
    (h : removeDependency (fuel + 1) parentPath childPath st = some st') :
    ((listRemove m.inverseDependencies parentPath ≠ [] →
        mapGet st'.graph childPath =
          some { m with inverseDependencies := listRemove m.inverseDependencies parentPath } ∧
        (∀ q, q ≠ childPath → mapGet st'.graph q = mapGet st.graph q) ∧
        st'.delta = st.delta) ∧
      (listRemove m.inverseDependencies parentPath = [] →
        childPath ∈ st'.delta.deleted ∧ mapGet st'.graph childPath = none)) ∧
      (∀ q mq, mapGet st.graph q = some mq → ∀ r ∈ mq.inverseDependencies,
        r ≠ parentPath → r ∉ st'.delta.deleted →
        ∃ mq', mapGet st'.graph q = some mq' ∧ r ∈ mq'.inverseDependencies) ∧
      (cascadeRun = some cascadeEnd ∧ cascadeEnd.delta.deleted = ["X", "Y"] ∧
        mapGet cascadeEnd.graph "Y" = none ∧
        mapGet cascadeEnd.graph "Z" = some { modZ with inverseDependencies := ["W"] } ∧
        mapGet cascadeEnd.graph "W" = some modW) := by
  have hspec := remStep_spec (fuel + 1) (RemCall.one parentPath childPath) st st' h
  obtain ⟨-, -, -, -, -, -, hw⟩ := hspec
  obtain ⟨-, -, hkeep, -⟩ := hw hwf
  refine ⟨⟨?_, ?_⟩, hkeep, by decide, by decide, by decide, by decide, by decide⟩
  · intro hinv
    have hemp : (listRemove m.inverseDependencies parentPath).isEmpty = false := by
      cases he : (listRemove m.inverseDependencies parentPath).isEmpty
      · rfl
      · exact absurd (List.isEmpty_iff.mp he) hinv
    unfold removeDependency at h
    rw [remStep_one_keep fuel parentPath childPath st m hm hemp, Option.some_inj] at h
    rw [← h]
    exact ⟨mapGet_mapSet_self _ _ _,
      fun q hq => mapGet_mapSet_ne _ _ _ _ (Ne.symm hq), rfl⟩
  · intro hinv
    have hemp : (listRemove m.inverseDependencies parentPath).isEmpty = true := by
      rw [List.isEmpty_iff]
      exact hinv
    unfold removeDependency at h
    rw [remStep_one_del fuel parentPath childPath st m hm hemp] at h
    have hpath : m.path = childPath := WFg_path st.graph hwf _ _ hm
    cases hrec : remStep fuel (RemCall.all m.path (m.dependencies.map Prod.snd))
        { st with
          events := st.events ++ [Event.removeCall parentPath childPath],
          graph := mapSet st.graph childPath
            { m with inverseDependencies := listRemove m.inverseDependencies parentPath },
          delta := { st.delta with deleted := setAdd st.delta.deleted m.path } } with
    | none =>
      rw [hrec] at h
      exact absurd h (by simp)
    | some st2 =>
      rw [hrec] at h
      rw [Option.some_inj] at h
      have hall := remStep_spec _ _ _ _ hrec
      obtain ⟨-, -, b3, -, -, -, hw2⟩ := hall
      have hwfC : WFg (mapSet st.graph childPath
          { m with inverseDependencies := listRemove m.inverseDependencies parentPath }) :=
        WFg_mapSet _ _ _ hwf (by rw [← hpath])
      obtain ⟨wf2, -, -, -⟩ := hw2 hwfC
      constructor
      · rw [← h]
        have : m.path ∈ st2.delta.deleted := b3 m.path (mem_setAdd_self _ _)
        rw [← hpath]
        exact this
      · rw [← h, ← hpath]
        exact mapGet_mapDeleteB_self _ _ wf2.1

/-- C2 witness: the shared-dependency scenario — removing `B → D` while `C`
still refers to `D` leaves `D` with back-references exactly `{C}`. -/
theorem c2_witness :
    WFg sharedSt.graph ∧ mapGet sharedSt.graph "D" = some modDsh ∧
      removeDependency 10 "B" "D" sharedSt = some sharedEnd ∧
      mapGet sharedEnd.graph "D" =
        some { modDsh with inverseDependencies := ["C"] } :=
  ⟨by decide, by decide, by decide,
    ((c2_remove_dependency 9 "B" "D" sharedSt sharedEnd modDsh (by decide) (by decide)
      (by decide)).1.1 (by decide)).1⟩

/-- C4, as stated, is false on the code: `removeDependency` has no entry-point
guard, so when a module records the entry point `E` as a dependency and that
edge is removed while `E` has no other referrer, `E`'s record is deleted from
the graph. -/
theorem c4_counterexample :
    "E" ∈ entryGraphC4.entryPoints ∧ entryRun = some entryEnd ∧
      mapGet entryEnd.graph "E" = none := by
  decide

/-- C4 (amended): an entry point that is not recorded as a dependency value of
any module and is not itself the direct removal target is never removed by a
removal cascade — its record survives unchanged. -/
theorem c4_entry_point_retention (fuel : Nat) (gr : Graph)
    (parentPath targetPath E : Path) (mE : Module) (st st' : St)
    (hwf : WFg st.graph) (hgr : st.graph = gr.dependencies) (hE : E ∈ gr.entryPoints)
    (hrec : mapGet st.graph E = some mE)
    (hne : E ≠ targetPath)
    (hnodep : E ∉ depTargets st.graph)
    (h : removeDependency fuel parentPath targetPath st = some st') :
    mapGet st'.graph E = some mE := by
  have hspec := remStep_spec fuel (RemCall.one parentPath targetPath) st st' h
  obtain ⟨-, -, -, -, -, -, hw⟩ := hspec
  obtain ⟨-, -, -, hframe⟩ := hw hwf
  rw [hframe E (by simp [remTargets, hne]) hnodep]
  exact hrec

/-- C10: the add/remove diff of `processModule` is keyed by the specifier
string alone.  For a re-processing whose specifier set is unchanged but in
which a specifier `s` now resolves to a different absolute path: the module's
dependency map is replaced with the freshly resolved one (`s` now maps to the
new path), yet neither `removeDependency` nor `addDependency` is invoked at
all (the only logged event is the transform) — so the old target keeps its
record, including this module in its `inverseDependencies`, the new target is
never created or linked, and the delta is untouched. -/
theorem c10_specifier_keyed_diff (fuel : Nat) (modulePath s oldPath newPath : Path)
    (st : St) (options : Options) (m : Module) (result : TransformResult)
    (cur : List (Path × Path))
    (hm : mapGet st.graph modulePath = some m)
    (htr : options.transform modulePath = some result)
    (hcur : resolveDependencies modulePath result.dependencies options = cur)
    (hkeys1 : ∀ e ∈ m.dependencies, mapHas cur e.1 = true)
    (hkeys2 : ∀ e ∈ cur, mapHas m.dependencies e.1 = true)
    (hs : mapGet m.dependencies s = some oldPath)
    (hsnew : mapGet cur s = some newPath)
    (hne : oldPath ≠ newPath)
    (hfuel : m.dependencies.length + 2 ≤ fuel) :
    ∃ st', processModule fuel modulePath st options = some st' ∧
      (∃ m', mapGet st'.graph modulePath = some m' ∧ m'.dependencies = cur ∧
        mapGet m'.dependencies s = some newPath) ∧
      (∀ q, q ≠ modulePath → mapGet st'.graph q = mapGet st.graph q) ∧
      (mapGet st.graph newPath = none → newPath ≠ modulePath →
        mapGet st'.graph newPath = none) ∧
      st'.delta = st.delta ∧
      st'.events = st.events ++ [Event.transformCall modulePath] := by
  obtain ⟨g, rfl⟩ : ∃ g, fuel = g + 2 := ⟨fuel - 2, by omega⟩
  have hnew : newEntries m.dependencies cur = [] := by
    unfold newEntries
    rw [List.filter_eq_nil]
    intro e he
    simp [hkeys2 e he]
  have heq : processModule (g + 2) modulePath st options =
      some { st with
        events := st.events ++ [Event.transformCall modulePath],
        graph := mapSet st.graph modulePath
          { m with output := result.output, dependencies := cur } } := by
    unfold processModule
    simp only [travStep, hm, htr, hcur, removeOld]
    rw [remStep_old_id m.dependencies (g + 1) modulePath cur _ (by omega) hkeys1]
    rw [hnew]
    simp only [List.reverse_nil, ite_self]
    simp only [travStep]
  refine ⟨_, heq, ⟨_, mapGet_mapSet_self _ _ _, rfl, hsnew⟩, ?_, ?_, rfl, rfl⟩
  · intro q hq
    exact mapGet_mapSet_ne _ _ _ _ (Ne.symm hq)
  · intro hnone hqne
    rw [mapGet_mapSet_ne _ _ _ _ (Ne.symm hqne)]
    exact hnone

/-- C10 witness: the re-resolution scenario — `s` re-resolves from `OLD` to
`NEW`; `R`'s map is updated, `OLD` keeps `R` as referrer, `NEW` is never
created. -/
theorem c10_witness :
    mapGet reResolveSt.graph "R" = some modR ∧
      mapGet modR.dependencies "s" = some "OLD" ∧
      resolveDependencies "R" ["s"] reResolveOptions = [("s", "NEW")] ∧
      (∃ st', processModule 10 "R" reResolveSt reResolveOptions = some st' ∧
        (∃ m', mapGet st'.graph "R" = some m' ∧ m'.dependencies = [("s", "NEW")] ∧
          mapGet m'.dependencies "s" = some "NEW") ∧
        (∀ q, q ≠ "R" → mapGet st'.graph q = mapGet reResolveSt.graph q) ∧
        (mapGet reResolveSt.graph "NEW" = none → "NEW" ≠ "R" →
          mapGet st'.graph "NEW" = none) ∧
        st'.delta = reResolveSt.delta ∧
        st'.events = reResolveSt.events ++ [Event.transformCall "R"]) :=
  ⟨by decide, by decide, by decide,
    c10_specifier_keyed_diff 10 "R" "s" "OLD" "NEW" reResolveSt reResolveOptions
      modR { dependencies := ["s"], output := outEmpty } [("s", "NEW")]
      (by decide) rfl (by decide) (by decide) (by decide) (by decide) (by decide)
      (by decide) (by decide)⟩

/-- C4 witness: removing `M → N` in the safe entry-point scenario leaves the
entry point `E` untouched. -/
theorem c4_witness :
    WFg entrySafeSt.graph ∧ entrySafeSt.graph = entrySafeGraph.dependencies ∧
      "E" ∈ entrySafeGraph.entryPoints ∧
      mapGet entrySafeSt.graph "E" = some (sampleModule "E") ∧
      "E" ≠ "N" ∧ "E" ∉ depTargets entrySafeSt.graph ∧
      removeDependency 10 "M" "N" entrySafeSt = some entrySafeEnd ∧
      mapGet entrySafeEnd.graph "E" = some (sampleModule "E") :=
  ⟨by decide, by decide, by decide, by decide, by decide, by decide, by decide,
    c4_entry_point_retention 10 entrySafeGraph "M" "N" "E" (sampleModule "E")
      entrySafeSt entrySafeEnd (by decide) (by decide) (by decide) (by decide)
      (by decide) (by decide) (by decide)⟩

end Metro
